import Mathlib

/-!
# Verification of the tsearch query evaluator (pkg/util/tsearch/eval.go)

A shallow embedding of the full-text-search query evaluator: the boolean
evaluator (`evalNode`), the position-set evaluator (`evalWithinFollowedBy`),
the sorted-list merge (`evalFollowedBy`) and the position-list normalizer
(`sortAndUniqTSPositions`), together with proofs of the specified properties.

Modelling conventions:
* Go `uint16` position values are modelled as `Nat`; the `uint16(...)`
  conversions in the merge are modelled as `% 65536`.
* Go strings are compared bytewise; we model a lexeme as a `String` and
  compare its character sequence (`String.data`) lexicographically, which
  agrees with Go's bytewise comparison on UTF-8 encoded strings.
* `errors.AssertionFailedf("invalid operator %d", node.op)` is modelled by
  the error value `tsError.assertionFailed op`; functions returning
  `(T, error)` are modelled as `Except tsError T`.
-/

/-- The `weightStar` constant of the tsearch package (`1 << 4` in the
`tsWeight` bitmask): the special prefix-match marker stored in the weight
slot of a query term's first position annotation. -/
def weightStar : Nat := 16

/-- `maxTSVectorPositions`: maximum number of entries of a position list
(Postgres silently truncates position lists to length 256). -/
def maxTSVectorPositions : Nat := 256

/-- A single occurrence record: a bounded position index (`uint16` in Go)
and a weight byte. -/
structure tsPosition where
  position : Nat
  weight : Nat
deriving DecidableEq, Repr

/-- A term entry of a document vector: a lexeme together with the
occurrence records of that lexeme. -/
structure tsTerm where
  lexeme : String
  positions : List tsPosition
deriving DecidableEq, Repr

/-- A document vector: a list of term entries, sorted ascending and unique
by lexeme (an invariant established by the upstream parser). -/
abbrev TSVector := List tsTerm

/-- A query tree node. The Go struct `tsNode` carries an operator tag
(`tsOperator`), a term (for leaves), a `followedN` distance (`uint16`, for
followed-by nodes) and left/right children; we give one constructor per
recognized operator tag, plus `unknown` for a node whose tag lies outside
the recognized set (the evaluator's `default` branch). -/
inductive tsNode where
  | term (t : tsTerm)
  | and (l r : tsNode)
  | or (l r : tsNode)
  | not (x : tsNode)
  | followedby (followedN : Nat) (l r : tsNode)
  | unknown (op : Nat)
deriving DecidableEq, Repr

/-- The only error the evaluator can produce:
`errors.AssertionFailedf("invalid operator %d", node.op)`. -/
inductive tsError where
  | assertionFailed (op : Nat)
deriving DecidableEq, Repr

/-- `tsPositionSet`: metadata for a followed-by match: the positions at
which the match succeeds (or, if `invert` is set, fails), and the width of
the match. -/
structure tsPositionSet where
  positions : List tsPosition
  width : Nat
  invert : Bool
deriving DecidableEq, Repr

/-- `emitMatches` bit of the `emitMode` bitfield. -/
def emitMatches : Nat := 1

/-- `emitLeftUnmatched` bit of the `emitMode` bitfield. -/
def emitLeftUnmatched : Nat := 2

/-- `emitRightUnmatched` bit of the `emitMode` bitfield. -/
def emitRightUnmatched : Nat := 4

/-- Lexicographic strict comparison of character sequences; models Go's
bytewise `<` on strings (identical on UTF-8 encodings). -/
def strLtB : List Char → List Char → Bool
  | [], [] => false
  | [], _ :: _ => true
  | _ :: _, [] => false
  | a :: as, b :: bs => if a < b then true else if b < a then false else strLtB as bs

/-- `a <= b` on strings, as used by the `sort.Search` predicate
`e.v[i].lexeme >= target`. -/
def strLeB (a b : List Char) : Bool := !strLtB b a

/-- `strings.HasPrefix(s, pre)`: whether `s` begins with `pre`. -/
def goHasPrefix : (s pre : List Char) → Bool
  | _, [] => true
  | [], _ :: _ => false
  | a :: s, b :: pre => a == b && goHasPrefix s pre

/-- The `prefixMatch` computation shared by `evalNode` and
`evalWithinFollowedBy`: a leaf is a prefix query when its first position
annotation carries the `weightStar` marker. -/
def prefixMatchOf (t : tsTerm) : Bool :=
  match t.positions with
  | p :: _ => p.weight == weightStar
  | [] => false

/-- The `sort.Search(len(e.v), func(i) { return e.v[i].lexeme >= target })`
call: the smallest index whose entry's lexeme is at least `target`, or
`len(e.v)` if there is none. (Go's binary search is specified to return
exactly this index; the search predicate is monotone because the document
vector is sorted by lexeme.) -/
def searchVec (v : TSVector) (target : String) : Nat :=
  v.findIdx (fun t => strLeB target.data t.lexeme.data)

/-- The forward scan of the prefix-match branch of the position-set leaf
evaluator: starting from the entry found by the binary search, accumulate
the positions of every consecutive entry whose lexeme has `target` as a
prefix, stopping at the first entry lacking the prefix. -/
def collectPrefixPositions (target : String) : List tsTerm → List tsPosition
  | [] => []
  | e :: rest =>
      if goHasPrefix e.lexeme.data target.data then
        e.positions ++ collectPrefixPositions target rest
      else []

/-- One insertion step of the sort underlying `sort.Slice(pos, ...)`
(ordering solely by the `position` attribute). -/
def insertByPos (p : tsPosition) : List tsPosition → List tsPosition
  | [] => [p]
  | q :: rest => if p.position < q.position then p :: q :: rest else q :: insertByPos p rest

/-- The `sort.Slice(pos, func(i, j) { return pos[i].position < pos[j].position })`
call, modelled as an insertion sort. (`sort.Slice` guarantees only that the
result is ordered by the comparator; the relative order of entries with
equal positions is unspecified in Go, and immaterial here because the
subsequent deduplication keeps a single entry per position.) -/
def sortByPos : List tsPosition → List tsPosition
  | [] => []
  | p :: rest => insertByPos p (sortByPos rest)

/-- The distinct-keeping loop of `sortAndUniqTSPositions`: walk the tail,
keeping each entry whose position differs from the last kept entry. -/
def uniqByPosFrom (last : tsPosition) : List tsPosition → List tsPosition
  | [] => []
  | p :: rest =>
      if p.position != last.position then p :: uniqByPosFrom p rest
      else uniqByPosFrom last rest

/-- The deduplication pass of `sortAndUniqTSPositions`: the first entry is
always kept (`lastUniqueIdx = 0`), then the loop keeps each entry whose
position differs from the last kept one. -/
def uniqByPos : List tsPosition → List tsPosition
  | [] => []
  | p :: rest => p :: uniqByPosFrom p rest

/-- `sortAndUniqTSPositions`: sort and uniquify a position list by the
`position` attribute, then truncate to `maxTSVectorPositions` entries. -/
def sortAndUniqTSPositions (pos : List tsPosition) : List tsPosition :=
  if pos.length ≤ 1 then pos
  else
    let sorted := sortByPos pos
    let uniq := uniqByPos sorted
    if uniq.length > maxTSVectorPositions then uniq.take maxTSVectorPositions else uniq

/-- The merge loop of `evalFollowedBy`: walk the two sorted position lists
with one cursor each, comparing offset-adjusted positions, emitting
according to `mode` and advancing the cursor(s) with the smaller adjusted
position. The Go loop handles an exhausted side by either breaking (when
the corresponding unmatched-emission bit is unset) or setting that side's
position to `math.MaxInt64` so that every remaining element of the other
side compares smaller and is emitted; we model the sentinel by emitting
the remaining elements directly (every representable adjusted position is
smaller than `math.MaxInt64`). Emitted entries store `uint16(lPos)` /
`uint16(rPos)` — the offset-adjusted value reduced mod 2^16 — with a zero
weight. -/
def evalFollowedByLoop (mode lOffset rOffset : Nat) :
    List tsPosition → List tsPosition → List tsPosition
  | [], [] => []
  | [], r :: rs =>
      if Nat.land mode emitRightUnmatched = 0 then []
      else ⟨(r.position + rOffset) % 65536, 0⟩ ::
        evalFollowedByLoop mode lOffset rOffset [] rs
  | l :: ls, [] =>
      if Nat.land mode emitLeftUnmatched = 0 then []
      else ⟨(l.position + lOffset) % 65536, 0⟩ ::
        evalFollowedByLoop mode lOffset rOffset ls []
  | l :: ls, r :: rs =>
      let lPos := l.position + lOffset
      let rPos := r.position + rOffset
      if lPos < rPos then
        (if Nat.land mode emitLeftUnmatched ≠ 0 then [⟨lPos % 65536, 0⟩] else []) ++
          evalFollowedByLoop mode lOffset rOffset ls (r :: rs)
      else if lPos = rPos then
        (if Nat.land mode emitMatches ≠ 0 then [⟨rPos % 65536, 0⟩] else []) ++
          evalFollowedByLoop mode lOffset rOffset ls rs
      else
        (if Nat.land mode emitRightUnmatched ≠ 0 then [⟨rPos % 65536, 0⟩] else []) ++
          evalFollowedByLoop mode lOffset rOffset (l :: ls) rs
termination_by ls rs => ls.length + rs.length

/-- `evalFollowedBy`: the offsetted set operation on two position sets.
The Go function fills only the `positions` field of its zero-valued result
(`width` 0, `invert` false) and always returns a nil error. -/
def evalFollowedBy (lPositions rPositions : tsPositionSet) (lOffset rOffset mode : Nat) :
    Except tsError tsPositionSet :=
  .ok ⟨evalFollowedByLoop mode lOffset rOffset lPositions.positions rPositions.positions, 0, false⟩

/-- `evalWithinFollowedBy`: the position-set evaluator for sub-expressions
of a followed-by operator, returning all positions at which the sub-tree
matches, the match width, and the inversion flag. -/
def evalWithinFollowedBy (v : TSVector) : tsNode → Except tsError tsPositionSet
  | .term t =>
      let target := t.lexeme
      let i := searchVec v target
      match v[i]? with
      | none => .ok ⟨[], 0, false⟩
      | some e =>
          if prefixMatchOf t then
            .ok ⟨sortAndUniqTSPositions (collectPrefixPositions target (v.drop i)), 0, false⟩
          else if e.lexeme != target then .ok ⟨[], 0, false⟩
          else .ok ⟨e.positions, 0, false⟩
  | .or l r =>
      match evalWithinFollowedBy v l with
      | .error e => .error e
      | .ok lP =>
        match evalWithinFollowedBy v r with
        | .error e => .error e
        | .ok rP =>
          let width := if rP.width > lP.width then rP.width else lP.width
          let lOffset := width - lP.width
          let rOffset := width - rP.width
          let mi :=
            if lP.invert && rP.invert then (emitMatches, true)
            else if lP.invert then (emitLeftUnmatched, true)
            else if rP.invert then (emitRightUnmatched, true)
            else (emitMatches ||| emitLeftUnmatched ||| emitRightUnmatched, false)
          match evalFollowedBy lP rP lOffset rOffset mi.fst with
          | .error e => .error e
          | .ok ret0 =>
            let ret1 := if mi.snd then { ret0 with invert := true } else ret0
            .ok { ret1 with width := width }
  | .not x =>
      match evalWithinFollowedBy v x with
      | .error e => .error e
      | .ok ret => .ok { ret with invert := !ret.invert }
  | .followedby n l r =>
      match evalWithinFollowedBy v l with
      | .error e => .error e
      | .ok lP =>
        match evalWithinFollowedBy v r with
        | .error e => .error e
        | .ok rP =>
          let lOffset := n + rP.width
          let rOffset := 0
          let width := lOffset + lP.width
          let mi :=
            if lP.invert && rP.invert then
              (emitMatches ||| emitLeftUnmatched ||| emitRightUnmatched, true)
            else if lP.invert then (emitRightUnmatched, false)
            else if rP.invert then (emitLeftUnmatched, false)
            else (emitMatches, false)
          match evalFollowedBy lP rP lOffset rOffset mi.fst with
          | .error e => .error e
          | .ok ret0 =>
            let ret1 := if mi.snd then { ret0 with invert := true } else ret0
            .ok { ret1 with width := width }
  | .and l r =>
      match evalWithinFollowedBy v l with
      | .error e => .error e
      | .ok lP =>
        match evalWithinFollowedBy v r with
        | .error e => .error e
        | .ok rP =>
          let width := if rP.width > lP.width then rP.width else lP.width
          let lOffset := width - lP.width
          let rOffset := width - rP.width
          let mi :=
            if lP.invert && rP.invert then
              (emitMatches ||| emitLeftUnmatched ||| emitRightUnmatched, true)
            else if lP.invert then (emitRightUnmatched, false)
            else if rP.invert then (emitLeftUnmatched, false)
            else (emitMatches, false)
          match evalFollowedBy lP rP lOffset rOffset mi.fst with
          | .error e => .error e
          | .ok ret0 =>
            let ret1 := if mi.snd then { ret0 with invert := true } else ret0
            .ok { ret1 with width := width }
  | .unknown k => .error (.assertionFailed k)

/-- `evalNode`: the boolean evaluator for a query node that is not nested
within any followed-by operator. -/
def evalNode (v : TSVector) : tsNode → Except tsError Bool
  | .term t =>
      let target := t.lexeme
      let i := searchVec v target
      match v[i]? with
      | some e =>
          if prefixMatchOf t then .ok (goHasPrefix e.lexeme.data target.data)
          else .ok (e.lexeme == target)
      | none => .ok false
  | .and l r =>
      match evalNode v l with
      | .error e => .error e
      | .ok false => .ok false
      | .ok true => evalNode v r
  | .or l r =>
      match evalNode v l with
      | .error e => .error e
      | .ok true => .ok true
      | .ok false => evalNode v r
  | .not x =>
      match evalNode v x with
      | .error e => .error e
      | .ok b => .ok (!b)
  | .followedby n l r =>
      match evalWithinFollowedBy v (.followedby n l r) with
      | .error e => .error e
      | .ok ps => .ok (decide (0 < ps.positions.length))
  | .unknown k => .error (.assertionFailed k)

/-- `EvalTSQuery`: the public entry point, evaluating the query's root
node against the vector. -/
def EvalTSQuery (q : tsNode) (v : TSVector) : Except tsError Bool :=
  evalNode v q

/-! ## Basic properties of the sorted-list merge loop -/

/-- Strict ordering of occurrence records by their `position` attribute. -/
def posLt (a b : tsPosition) : Prop := a.position < b.position

instance : DecidableRel posLt := fun a b => inferInstanceAs (Decidable (a.position < b.position))

theorem fbLoop_nil_nil (m lo ro : Nat) : evalFollowedByLoop m lo ro [] [] = [] := by
  simp [evalFollowedByLoop]

theorem fbLoop_nil_cons (m lo ro : Nat) (r : tsPosition) (rs : List tsPosition) :
    evalFollowedByLoop m lo ro [] (r :: rs) =
      if Nat.land m emitRightUnmatched = 0 then []
      else ⟨(r.position + ro) % 65536, 0⟩ :: evalFollowedByLoop m lo ro [] rs := by
  rw [evalFollowedByLoop]

theorem fbLoop_cons_nil (m lo ro : Nat) (l : tsPosition) (ls : List tsPosition) :
    evalFollowedByLoop m lo ro (l :: ls) [] =
      if Nat.land m emitLeftUnmatched = 0 then []
      else ⟨(l.position + lo) % 65536, 0⟩ :: evalFollowedByLoop m lo ro ls [] := by
  rw [evalFollowedByLoop]

theorem fbLoop_cons_cons (m lo ro : Nat) (l r : tsPosition) (ls rs : List tsPosition) :
    evalFollowedByLoop m lo ro (l :: ls) (r :: rs) =
      if l.position + lo < r.position + ro then
        (if Nat.land m emitLeftUnmatched ≠ 0 then [⟨(l.position + lo) % 65536, 0⟩] else []) ++
          evalFollowedByLoop m lo ro ls (r :: rs)
      else if l.position + lo = r.position + ro then
        (if Nat.land m emitMatches ≠ 0 then [⟨(r.position + ro) % 65536, 0⟩] else []) ++
          evalFollowedByLoop m lo ro ls rs
      else
        (if Nat.land m emitRightUnmatched ≠ 0 then [⟨(r.position + ro) % 65536, 0⟩] else []) ++
          evalFollowedByLoop m lo ro (l :: ls) rs := by
  rw [evalFollowedByLoop]

/-- Every entry emitted by the merge loop is an offset-adjusted input
position reduced mod 2^16 (with a zero weight): either `(p + lOffset) % 2^16`
for a left input `p`, or `(p + rOffset) % 2^16` for a right input `p`. -/
theorem fbLoop_mem (m lo ro : Nat) (ls rs : List tsPosition) :
    ∀ x ∈ evalFollowedByLoop m lo ro ls rs,
      (∃ p ∈ ls, x = ⟨(p.position + lo) % 65536, 0⟩) ∨
      (∃ p ∈ rs, x = ⟨(p.position + ro) % 65536, 0⟩) := by
  induction ls, rs using evalFollowedByLoop.induct m lo ro with
  | case1 => intro x hx; rw [fbLoop_nil_nil] at hx; cases hx
  | case2 r rs h => intro x hx; rw [fbLoop_nil_cons] at hx; simp [h] at hx
  | case3 r rs h ih =>
      intro x hx
      rw [fbLoop_nil_cons, if_neg h] at hx
      rcases List.mem_cons.mp hx with hx | hx
      · exact Or.inr ⟨r, List.mem_cons_self r rs, hx⟩
      · rcases ih x hx with ⟨p, hp, he⟩ | ⟨p, hp, he⟩
        · cases hp
        · exact Or.inr ⟨p, List.mem_cons_of_mem r hp, he⟩
  | case4 l ls h => intro x hx; rw [fbLoop_cons_nil] at hx; simp [h] at hx
  | case5 l ls h ih =>
      intro x hx
      rw [fbLoop_cons_nil, if_neg h] at hx
      rcases List.mem_cons.mp hx with hx | hx
      · exact Or.inl ⟨l, List.mem_cons_self l ls, hx⟩
      · rcases ih x hx with ⟨p, hp, he⟩ | ⟨p, hp, he⟩
        · exact Or.inl ⟨p, List.mem_cons_of_mem l hp, he⟩
        · cases hp
  | case6 l ls r rs _ _ hlt ih =>
      intro x hx
      rw [fbLoop_cons_cons, if_pos hlt] at hx
      rcases List.mem_append.mp hx with hx | hx
      · have : x = (⟨(l.position + lo) % 65536, 0⟩ : tsPosition) := by
          by_cases hb : Nat.land m emitLeftUnmatched ≠ 0 <;> simp [hb] at hx
          tauto
        exact Or.inl ⟨l, List.mem_cons_self l ls, this⟩
      · rcases ih x hx with ⟨p, hp, he⟩ | ⟨p, hp, he⟩
        · exact Or.inl ⟨p, List.mem_cons_of_mem l hp, he⟩
        · exact Or.inr ⟨p, hp, he⟩
  | case7 l ls r rs _ _ hnlt heq ih =>
      intro x hx
      rw [fbLoop_cons_cons, if_neg hnlt, if_pos heq] at hx
      rcases List.mem_append.mp hx with hx | hx
      · have : x = (⟨(r.position + ro) % 65536, 0⟩ : tsPosition) := by
          by_cases hb : Nat.land m emitMatches ≠ 0 <;> simp [hb] at hx
          tauto
        exact Or.inr ⟨r, List.mem_cons_self r rs, this⟩
      · rcases ih x hx with ⟨p, hp, he⟩ | ⟨p, hp, he⟩
        · exact Or.inl ⟨p, List.mem_cons_of_mem l hp, he⟩
        · exact Or.inr ⟨p, List.mem_cons_of_mem r hp, he⟩
  | case8 l ls r rs _ _ hnlt hne ih =>
      intro x hx
      rw [fbLoop_cons_cons, if_neg hnlt, if_neg hne] at hx
      rcases List.mem_append.mp hx with hx | hx
      · have : x = (⟨(r.position + ro) % 65536, 0⟩ : tsPosition) := by
          by_cases hb : Nat.land m emitRightUnmatched ≠ 0 <;> simp [hb] at hx
          tauto
        exact Or.inr ⟨r, List.mem_cons_self r rs, this⟩
      · rcases ih x hx with ⟨p, hp, he⟩ | ⟨p, hp, he⟩
        · exact Or.inl ⟨p, hp, he⟩
        · exact Or.inr ⟨p, List.mem_cons_of_mem r hp, he⟩

/-- The merge loop emits at most one entry per step: its output length is
bounded by the sum of the input lengths. -/
theorem fbLoop_length_le (m lo ro : Nat) (ls rs : List tsPosition) :
    (evalFollowedByLoop m lo ro ls rs).length ≤ ls.length + rs.length := by
  induction ls, rs using evalFollowedByLoop.induct m lo ro with
  | case1 => rw [fbLoop_nil_nil]; simp
  | case2 r rs h => rw [fbLoop_nil_cons, if_pos h]; simp
  | case3 r rs h ih => rw [fbLoop_nil_cons, if_neg h]; simpa using Nat.succ_le_succ ih
  | case4 l ls h => rw [fbLoop_cons_nil, if_pos h]; simp
  | case5 l ls h ih =>
      rw [fbLoop_cons_nil, if_neg h]
      simp only [List.length_cons, List.length_nil] at ih ⊢
      omega
  | case6 l ls r rs _ _ hlt ih =>
      rw [fbLoop_cons_cons, if_pos hlt]
      by_cases hb : Nat.land m emitLeftUnmatched ≠ 0
      · simp [hb] at ih ⊢
        omega
      · simp [hb] at ih ⊢
        omega
  | case7 l ls r rs _ _ hnlt heq ih =>
      rw [fbLoop_cons_cons, if_neg hnlt, if_pos heq]
      by_cases hb : Nat.land m emitMatches ≠ 0
      · simp [hb] at ih ⊢
        omega
      · simp [hb] at ih ⊢
        omega
  | case8 l ls r rs _ _ hnlt hne ih =>
      rw [fbLoop_cons_cons, if_neg hnlt, if_neg hne]
      by_cases hb : Nat.land m emitRightUnmatched ≠ 0
      · simp [hb] at ih ⊢
        omega
      · simp [hb] at ih ⊢
        omega

/-- Provided no offset-adjusted position overflows `uint16` (so the
`uint16(...)` conversions are lossless), the merge of two strictly
ascending position lists is strictly ascending: the loop emits values in
increasing order of the adjusted comparison value. -/
theorem fbLoop_pairwise (m lo ro : Nat) : ∀ ls rs : List tsPosition,
    List.Pairwise posLt ls → List.Pairwise posLt rs →
    (∀ p ∈ ls, p.position + lo < 65536) →
    (∀ p ∈ rs, p.position + ro < 65536) →
    List.Pairwise posLt (evalFollowedByLoop m lo ro ls rs) := by
  intro ls rs
  induction ls, rs using evalFollowedByLoop.induct m lo ro with
  | case1 => intro _ _ _ _; rw [fbLoop_nil_nil]; exact List.Pairwise.nil
  | case2 r rs h => intro _ _ _ _; rw [fbLoop_nil_cons, if_pos h]; exact List.Pairwise.nil
  | case3 r rs h ih =>
      intro _ hrs _ hro
      rw [fbLoop_nil_cons, if_neg h]
      rw [List.pairwise_cons] at hrs ⊢
      refine ⟨?_, ih List.Pairwise.nil hrs.2 (by simp)
        (fun q hq => hro q (List.mem_cons_of_mem r hq))⟩
      intro x hx
      rcases fbLoop_mem m lo ro [] rs x hx with ⟨p, hp, _⟩ | ⟨q, hq, he⟩
      · cases hp
      · subst he
        have h1 := hro r (List.mem_cons_self r rs)
        have h2 := hro q (List.mem_cons_of_mem r hq)
        have h3 := hrs.1 q hq
        simp only [posLt] at h3 ⊢
        omega
  | case4 l ls h => intro _ _ _ _; rw [fbLoop_cons_nil, if_pos h]; exact List.Pairwise.nil
  | case5 l ls h ih =>
      intro hls _ hlo _
      rw [fbLoop_cons_nil, if_neg h]
      rw [List.pairwise_cons] at hls ⊢
      refine ⟨?_, ih hls.2 List.Pairwise.nil
        (fun p hp => hlo p (List.mem_cons_of_mem l hp)) (by simp)⟩
      intro x hx
      rcases fbLoop_mem m lo ro ls [] x hx with ⟨p, hp, he⟩ | ⟨q, hq, _⟩
      · subst he
        have h1 := hlo l (List.mem_cons_self l ls)
        have h2 := hlo p (List.mem_cons_of_mem l hp)
        have h3 := hls.1 p hp
        simp only [posLt] at h3 ⊢
        omega
      · cases hq
  | case6 l ls r rs _ _ hlt ih =>
      intro hls hrs hlo hro
      rw [fbLoop_cons_cons, if_pos hlt]
      rw [List.pairwise_cons] at hls
      have hrec := ih hls.2 hrs (fun p hp => hlo p (List.mem_cons_of_mem l hp)) hro
      by_cases hb : Nat.land m emitLeftUnmatched ≠ 0
      · rw [if_pos hb, List.singleton_append, List.pairwise_cons]
        refine ⟨?_, hrec⟩
        intro x hx
        have hl1 := hlo l (List.mem_cons_self l ls)
        rcases fbLoop_mem m lo ro ls (r :: rs) x hx with ⟨p, hp, he⟩ | ⟨q, hq, he⟩
        · subst he
          have h2 := hlo p (List.mem_cons_of_mem l hp)
          have h3 := hls.1 p hp
          simp only [posLt] at h3 ⊢
          omega
        · subst he
          have h2 := hro q hq
          have h4 : r.position + ro ≤ q.position + ro := by
            rcases List.mem_cons.mp hq with h | h
            · subst h; omega
            · have := (List.pairwise_cons.mp hrs).1 q h
              simp only [posLt] at this
              omega
          simp only [posLt] at hlt ⊢
          omega
      · rw [if_neg hb, List.nil_append]
        exact hrec
  | case7 l ls r rs _ _ hnlt heq ih =>
      intro hls hrs hlo hro
      rw [fbLoop_cons_cons, if_neg hnlt, if_pos heq]
      rw [List.pairwise_cons] at hls hrs
      have hrec := ih hls.2 hrs.2 (fun p hp => hlo p (List.mem_cons_of_mem l hp))
        (fun q hq => hro q (List.mem_cons_of_mem r hq))
      by_cases hb : Nat.land m emitMatches ≠ 0
      · rw [if_pos hb, List.singleton_append, List.pairwise_cons]
        refine ⟨?_, hrec⟩
        intro x hx
        have hr1 := hro r (List.mem_cons_self r rs)
        rcases fbLoop_mem m lo ro ls rs x hx with ⟨p, hp, he⟩ | ⟨q, hq, he⟩
        · subst he
          have h2 := hlo p (List.mem_cons_of_mem l hp)
          have h3 := hls.1 p hp
          simp only [posLt] at h3 ⊢
          omega
        · subst he
          have h2 := hro q (List.mem_cons_of_mem r hq)
          have h3 := hrs.1 q hq
          simp only [posLt] at h3 ⊢
          omega
      · rw [if_neg hb, List.nil_append]
        exact hrec
  | case8 l ls r rs _ _ hnlt hne ih =>
      intro hls hrs hlo hro
      rw [fbLoop_cons_cons, if_neg hnlt, if_neg hne]
      rw [List.pairwise_cons] at hrs
      have hrec := ih hls hrs.2 hlo (fun q hq => hro q (List.mem_cons_of_mem r hq))
      by_cases hb : Nat.land m emitRightUnmatched ≠ 0
      · rw [if_pos hb, List.singleton_append, List.pairwise_cons]
        refine ⟨?_, hrec⟩
        intro x hx
        have hr1 := hro r (List.mem_cons_self r rs)
        rcases fbLoop_mem m lo ro (l :: ls) rs x hx with ⟨p, hp, he⟩ | ⟨q, hq, he⟩
        · subst he
          have h2 := hlo p hp
          have h4 : l.position + lo ≤ p.position + lo := by
            rcases List.mem_cons.mp hp with h | h
            · subst h; omega
            · have := (List.pairwise_cons.mp hls).1 p h
              simp only [posLt] at this
              omega
          simp only [posLt]
          omega
        · subst he
          have h2 := hro q (List.mem_cons_of_mem r hq)
          have h3 := hrs.1 q hq
          simp only [posLt] at h3 ⊢
          omega
      · rw [if_neg hb, List.nil_append]
        exact hrec

/-- In pure intersection mode, an emission happens only when the two
adjusted cursor positions coincide: a nonempty output yields a matching
pair of input positions. -/
theorem fbLoop_matches_sound (lo ro : Nat) : ∀ ls rs : List tsPosition,
    evalFollowedByLoop emitMatches lo ro ls rs ≠ [] →
    ∃ p ∈ ls, ∃ q ∈ rs, p.position + lo = q.position + ro := by
  intro ls rs
  induction ls, rs using evalFollowedByLoop.induct emitMatches lo ro with
  | case1 => rw [fbLoop_nil_nil]; intro h; exact absurd rfl h
  | case2 r rs h => rw [fbLoop_nil_cons, if_pos h]; intro h2; exact absurd rfl h2
  | case3 r rs h ih => exact absurd (by decide) h
  | case4 l ls h => rw [fbLoop_cons_nil, if_pos h]; intro h2; exact absurd rfl h2
  | case5 l ls h ih => exact absurd (by decide) h
  | case6 l ls r rs _ _ hlt ih =>
      rw [fbLoop_cons_cons, if_pos hlt, if_neg (by decide), List.nil_append]
      intro h
      rcases ih h with ⟨p, hp, q, hq, he⟩
      exact ⟨p, List.mem_cons_of_mem l hp, q, hq, he⟩
  | case7 l ls r rs _ _ hnlt heq ih =>
      intro _
      exact ⟨l, List.mem_cons_self l ls, r, List.mem_cons_self r rs, heq⟩
  | case8 l ls r rs _ _ hnlt hne ih =>
      rw [fbLoop_cons_cons, if_neg hnlt, if_neg hne, if_neg (by decide), List.nil_append]
      intro h
      rcases ih h with ⟨p, hp, q, hq, he⟩
      exact ⟨p, hp, q, List.mem_cons_of_mem r hq, he⟩

/-- In pure intersection mode, on strictly ascending inputs the forward
merge pass misses no match: a matching pair of input positions guarantees
a nonempty output. -/
theorem fbLoop_matches_complete (lo ro : Nat) : ∀ ls rs : List tsPosition,
    List.Pairwise posLt ls → List.Pairwise posLt rs →
    (∃ p ∈ ls, ∃ q ∈ rs, p.position + lo = q.position + ro) →
    evalFollowedByLoop emitMatches lo ro ls rs ≠ [] := by
  intro ls rs
  induction ls, rs using evalFollowedByLoop.induct emitMatches lo ro with
  | case1 => rintro _ _ ⟨p, hp, _⟩; cases hp
  | case2 r rs h => rintro _ _ ⟨p, hp, _⟩; cases hp
  | case3 r rs h ih => exact absurd (by decide) h
  | case4 l ls h => rintro _ _ ⟨p, _, q, hq, _⟩; cases hq
  | case5 l ls h ih => exact absurd (by decide) h
  | case6 l ls r rs _ _ hlt ih =>
      rintro hls hrs ⟨p, hp, q, hq, he⟩
      rw [fbLoop_cons_cons, if_pos hlt, if_neg (by decide), List.nil_append]
      have hpls : p ∈ ls := by
        rcases List.mem_cons.mp hp with h | h
        · exfalso
          subst h
          have hge : r.position + ro ≤ q.position + ro := by
            rcases List.mem_cons.mp hq with h' | h'
            · subst h'; omega
            · have := (List.pairwise_cons.mp hrs).1 q h'
              simp only [posLt] at this
              omega
          omega
        · exact h
      exact ih (List.pairwise_cons.mp hls).2 hrs ⟨p, hpls, q, hq, he⟩
  | case7 l ls r rs _ _ hnlt heq ih =>
      rintro _ _ _
      rw [fbLoop_cons_cons, if_neg hnlt, if_pos heq, if_pos (by decide),
        List.singleton_append]
      exact List.cons_ne_nil _ _
  | case8 l ls r rs _ _ hnlt hne ih =>
      rintro hls hrs ⟨p, hp, q, hq, he⟩
      rw [fbLoop_cons_cons, if_neg hnlt, if_neg hne, if_neg (by decide), List.nil_append]
      have hqrs : q ∈ rs := by
        rcases List.mem_cons.mp hq with h | h
        · exfalso
          subst h
          have hge : l.position + lo ≤ p.position + lo := by
            rcases List.mem_cons.mp hp with h' | h'
            · subst h'; omega
            · have := (List.pairwise_cons.mp hls).1 p h'
              simp only [posLt] at this
              omega
          omega
        · exact h
      exact ih hls (List.pairwise_cons.mp hrs).2 ⟨p, hp, q, hqrs, he⟩

/-! ## Properties of the bytewise string comparison and prefix test -/

theorem strLtB_irrefl (a : List Char) : strLtB a a = false := by
  induction a with
  | nil => rfl
  | cons c cs ih => simp [strLtB, ih]

theorem strLtB_asymm : ∀ {a b : List Char}, strLtB a b = true → strLtB b a = false
  | [], [], h => by simp [strLtB] at h
  | [], _ :: _, _ => rfl
  | _ :: _, [], h => by simp [strLtB] at h
  | a :: as, b :: bs, h => by
      simp only [strLtB] at h ⊢
      rcases lt_trichotomy a b with hab | hab | hab
      · simp [hab, not_lt_of_gt hab]
      · subst hab
        simp only [lt_irrefl, if_false] at h ⊢
        exact strLtB_asymm h
      · simp [hab, not_lt_of_gt hab] at h

theorem strLtB_conn : ∀ {a b : List Char}, strLtB a b = false → strLtB b a = false → a = b
  | [], [], _, _ => rfl
  | [], _ :: _, h, _ => by simp [strLtB] at h
  | _ :: _, [], _, h => by simp [strLtB] at h
  | a :: as, b :: bs, h1, h2 => by
      simp only [strLtB] at h1 h2
      rcases lt_trichotomy a b with hab | hab | hab
      · simp [hab] at h1
      · subst hab
        simp only [lt_irrefl, if_false] at h1 h2
        rw [strLtB_conn h1 h2]
      · simp [hab] at h2

/-- A string is at least any of its prefixes in the bytewise order. -/
theorem goHasPrefix_not_lt : ∀ {t y : List Char}, goHasPrefix y t = true → strLtB y t = false
  | [], [], _ => rfl
  | [], _ :: _, _ => rfl
  | _ :: _, [], h => by simp [goHasPrefix] at h
  | t :: ts, y :: ys, h => by
      simp only [goHasPrefix, Bool.and_eq_true, beq_iff_eq] at h
      obtain ⟨rfl, h2⟩ := h
      simp only [strLtB, lt_irrefl, if_false]
      exact goHasPrefix_not_lt h2

/-- Bytewise-order betweenness of prefixes: if `t` is a prefix of `y`, any
string `x` with `t <= x <= y` also has `t` as a prefix (which is why the
forward scan over the sorted vector finds every prefix match in one
contiguous block). -/
theorem goHasPrefix_between : ∀ {t x y : List Char}, goHasPrefix y t = true →
    strLtB x t = false → strLtB y x = false → goHasPrefix x t = true
  | [], x, _, _, _, _ => by cases x <;> rfl
  | _ :: _, [], _, _, htx, _ => by simp [strLtB] at htx
  | _ :: _, _ :: _, [], hy, _, _ => by simp [goHasPrefix] at hy
  | t :: ts, x :: xs, y :: ys, hy, htx, hxy => by
      simp only [goHasPrefix, Bool.and_eq_true, beq_iff_eq] at hy ⊢
      obtain ⟨rfl, hy2⟩ := hy
      have hxt : x = y := by
        rcases lt_trichotomy x y with hc | hc | hc
        · rw [strLtB, if_pos hc] at htx; cases htx
        · exact hc
        · rw [strLtB, if_pos hc] at hxy; cases hxy
      subst hxt
      rw [strLtB, if_neg (lt_irrefl x), if_neg (lt_irrefl x)] at htx hxy
      exact ⟨rfl, goHasPrefix_between hy2 htx hxy⟩

/-! ## Document-vector well-formedness and term lookup -/

/-- Non-strict ordering of occurrence records by `position`. -/
def posLe (a b : tsPosition) : Prop := a.position ≤ b.position

/-- Strict bytewise ordering of term entries by lexeme. -/
def lexLt (a b : tsTerm) : Prop := strLtB a.lexeme.data b.lexeme.data = true

/-- The document vector is sorted ascending and unique by lexeme (the
data-model invariant established by the upstream parser). -/
def vecLexSorted (v : TSVector) : Prop := List.Pairwise lexLt v

/-- Every term entry's position list is strictly ascending (sorted and
deduplicated). -/
def vecPosSorted (v : TSVector) : Prop :=
  ∀ e ∈ v, List.Pairwise posLt e.positions

instance : DecidableRel lexLt :=
  fun a b => inferInstanceAs (Decidable (strLtB a.lexeme.data b.lexeme.data = true))

instance (v : TSVector) : Decidable (vecLexSorted v) :=
  inferInstanceAs (Decidable (List.Pairwise lexLt v))

instance (v : TSVector) : Decidable (vecPosSorted v) :=
  inferInstanceAs (Decidable (∀ e ∈ v, List.Pairwise posLt e.positions))

/-- In a lexeme-sorted vector, an entry is determined by its lexeme. -/
theorem vecLexSorted_unique {v : TSVector} (hv : vecLexSorted v) {a b : tsTerm}
    (ha : a ∈ v) (hb : b ∈ v) (hab : a.lexeme = b.lexeme) : a = b := by
  obtain ⟨i, hi, rfl⟩ := List.mem_iff_getElem.mp ha
  obtain ⟨j, hj, rfl⟩ := List.mem_iff_getElem.mp hb
  rcases lt_trichotomy i j with hij | hij | hij
  · exfalso
    have := (List.pairwise_iff_getElem.mp hv) i j hi hj hij
    rw [lexLt, hab] at this
    rw [strLtB_irrefl] at this
    cases this
  · simp [hij]
  · exfalso
    have := (List.pairwise_iff_getElem.mp hv) j i hj hi hij
    rw [lexLt, hab] at this
    rw [strLtB_irrefl] at this
    cases this

theorem strLeB_eq_true_iff (a b : List Char) : strLeB a b = true ↔ strLtB b a = false := by
  simp [strLeB]

/-- When the target lexeme is present in a sorted vector, the binary
search lands exactly on its entry. -/
theorem searchVec_found {v : TSVector} (hv : vecLexSorted v) {e : tsTerm}
    (he : e ∈ v) (target : String) (hlex : e.lexeme = target) :
    ∃ h : searchVec v target < v.length, v[searchVec v target].lexeme = target := by
  have hpred : strLeB target.data e.lexeme.data = true := by
    simp only [strLeB, hlex, strLtB_irrefl, Bool.not_false]
  have hlt : v.findIdx (fun t => strLeB target.data t.lexeme.data) < v.length :=
    List.findIdx_lt_length_of_exists ⟨e, he, by simpa using hpred⟩
  have hsv : searchVec v target = v.findIdx (fun t => strLeB target.data t.lexeme.data) := rfl
  rw [hsv]
  refine ⟨hlt, ?_⟩
  obtain ⟨j, hj, hje⟩ := List.mem_iff_getElem.mp he
  have hple : ¬ (j < v.findIdx (fun t => strLeB target.data t.lexeme.data)) := by
    intro hlt2
    have h0 := List.not_of_lt_findIdx hlt2
    simp only [hje] at h0
    rw [hpred] at h0
    cases h0
  rcases Nat.lt_or_ge (v.findIdx (fun t => strLeB target.data t.lexeme.data)) j with hij | hij
  · exfalso
    have hrel := (List.pairwise_iff_getElem.mp hv) _ j hlt hj hij
    rw [lexLt, hje, hlex] at hrel
    have hfound : strLeB target.data
        (v[v.findIdx (fun t => strLeB target.data t.lexeme.data)]).lexeme.data = true := by
      simpa using @List.findIdx_getElem _ (fun t => strLeB target.data t.lexeme.data) v hlt
    rw [strLeB_eq_true_iff] at hfound
    rw [hfound] at hrel
    cases hrel
  · have heqj : v.findIdx (fun t => strLeB target.data t.lexeme.data) = j :=
      Nat.le_antisymm (Nat.le_of_not_lt hple) hij
    simp only [heqj, hje, hlex]

/-! ## Properties of the position-list normalizer -/

theorem mem_insertByPos (p x : tsPosition) : ∀ l : List tsPosition,
    x ∈ insertByPos p l ↔ x = p ∨ x ∈ l
  | [] => by simp [insertByPos]
  | q :: rest => by
      rw [insertByPos]
      by_cases h : p.position < q.position
      · rw [if_pos h]
        simp [List.mem_cons]
      · rw [if_neg h]
        rw [List.mem_cons, mem_insertByPos p x rest, List.mem_cons]
        tauto

theorem mem_sortByPos (x : tsPosition) : ∀ l : List tsPosition,
    x ∈ sortByPos l ↔ x ∈ l
  | [] => Iff.rfl
  | p :: rest => by
      rw [sortByPos, mem_insertByPos, mem_sortByPos x rest, List.mem_cons]

theorem insertByPos_pairwise_le (p : tsPosition) : ∀ l : List tsPosition,
    List.Pairwise posLe l → List.Pairwise posLe (insertByPos p l)
  | [], _ => List.pairwise_singleton _ _
  | q :: rest, h => by
      rw [insertByPos]
      rw [List.pairwise_cons] at h
      by_cases hpq : p.position < q.position
      · rw [if_pos hpq, List.pairwise_cons]
        constructor
        · intro x hx
          rcases List.mem_cons.mp hx with rfl | hx
          · exact Nat.le_of_lt hpq
          · exact Nat.le_trans (Nat.le_of_lt hpq) (h.1 x hx)
        · exact List.pairwise_cons.mpr h
      · rw [if_neg hpq, List.pairwise_cons]
        constructor
        · intro x hx
          rcases (mem_insertByPos p x rest).mp hx with rfl | hx
          · exact Nat.le_of_not_lt hpq
          · exact h.1 x hx
        · exact insertByPos_pairwise_le p rest h.2

theorem sortByPos_pairwise_le : ∀ l : List tsPosition, List.Pairwise posLe (sortByPos l)
  | [] => List.Pairwise.nil
  | p :: rest => insertByPos_pairwise_le p (sortByPos rest) (sortByPos_pairwise_le rest)

theorem mem_uniqByPosFrom (x : tsPosition) : ∀ (last : tsPosition) (l : List tsPosition),
    x ∈ uniqByPosFrom last l → x ∈ l
  | _, [] => by simp [uniqByPosFrom]
  | last, p :: rest => by
      rw [uniqByPosFrom]
      by_cases h : p.position ≠ last.position
      · rw [if_pos (by simpa using h)]
        intro hx
        rcases List.mem_cons.mp hx with rfl | hx
        · exact List.mem_cons_self _ _
        · exact List.mem_cons_of_mem _ (mem_uniqByPosFrom x p rest hx)
      · rw [if_neg (by simpa using h)]
        intro hx
        exact List.mem_cons_of_mem _ (mem_uniqByPosFrom x last rest hx)

theorem mem_uniqByPos (x : tsPosition) : ∀ l : List tsPosition, x ∈ uniqByPos l → x ∈ l
  | [] => by simp [uniqByPos]
  | p :: rest => by
      rw [uniqByPos]
      intro hx
      rcases List.mem_cons.mp hx with rfl | hx
      · exact List.mem_cons_self _ _
      · exact List.mem_cons_of_mem _ (mem_uniqByPosFrom x p rest hx)

/-- The deduplication walk turns a non-strictly sorted list into a
strictly sorted one, every element staying above the running last-kept
entry. -/
theorem uniqByPosFrom_strict : ∀ (last : tsPosition) (l : List tsPosition),
    List.Pairwise posLe l → (∀ x ∈ l, last.position ≤ x.position) →
    List.Pairwise posLt (uniqByPosFrom last l) ∧
      ∀ x ∈ uniqByPosFrom last l, last.position < x.position
  | _, [], _, _ => ⟨List.Pairwise.nil, by simp [uniqByPosFrom]⟩
  | last, p :: rest, hl, hb => by
      rw [List.pairwise_cons] at hl
      rw [uniqByPosFrom]
      by_cases h : p.position ≠ last.position
      · rw [if_pos (by simpa using h)]
        have hlp : last.position < p.position :=
          Nat.lt_of_le_of_ne (hb p (List.mem_cons_self _ _)) (fun he => h he.symm)
        obtain ⟨hrec, hbnd⟩ := uniqByPosFrom_strict p rest hl.2 hl.1
        refine ⟨List.pairwise_cons.mpr ⟨?_, hrec⟩, ?_⟩
        · intro x hx
          exact hbnd x hx
        · intro x hx
          rcases List.mem_cons.mp hx with rfl | hx
          · exact hlp
          · exact Nat.lt_trans hlp (hbnd x hx)
      · rw [if_neg (by simpa using h)]
        have hple : p.position = last.position := by simpa using h
        exact uniqByPosFrom_strict last rest hl.2
          (fun x hx => hple ▸ hl.1 x hx)

theorem uniqByPos_pairwise : ∀ l : List tsPosition,
    List.Pairwise posLe l → List.Pairwise posLt (uniqByPos l)
  | [], _ => List.Pairwise.nil
  | p :: rest, hl => by
      rw [List.pairwise_cons] at hl
      rw [uniqByPos]
      obtain ⟨hrec, hbnd⟩ := uniqByPosFrom_strict p rest hl.2 hl.1
      exact List.pairwise_cons.mpr ⟨fun x hx => hbnd x hx, hrec⟩

/-- The normalizer always returns a strictly ascending (sorted,
duplicate-free) list. -/
theorem sortAndUniq_pairwise (l : List tsPosition) :
    List.Pairwise posLt (sortAndUniqTSPositions l) := by
  rw [sortAndUniqTSPositions]
  by_cases h : l.length ≤ 1
  · rw [if_pos h]
    match l, h with
    | [], _ => exact List.Pairwise.nil
    | [x], _ => exact List.pairwise_singleton _ _
  · rw [if_neg h]
    have huniq := uniqByPos_pairwise (sortByPos l) (sortByPos_pairwise_le l)
    by_cases h2 : (uniqByPos (sortByPos l)).length > maxTSVectorPositions
    · simp only [h2, if_true]
      exact huniq.sublist (List.take_sublist _ _)
    · simp only [h2, if_false]
      exact huniq

/-- Every entry of the normalized list comes from the input list. -/
theorem mem_sortAndUniq (x : tsPosition) (l : List tsPosition)
    (hx : x ∈ sortAndUniqTSPositions l) : x ∈ l := by
  rw [sortAndUniqTSPositions] at hx
  by_cases h : l.length ≤ 1
  · rwa [if_pos h] at hx
  · rw [if_neg h] at hx
    by_cases h2 : (uniqByPos (sortByPos l)).length > maxTSVectorPositions
    · simp only [h2, if_true] at hx
      exact (mem_sortByPos x l).mp
        (mem_uniqByPos x (sortByPos l) (List.take_subset _ _ hx))
    · simp only [h2, if_false] at hx
      exact (mem_sortByPos x l).mp (mem_uniqByPos x (sortByPos l) hx)

/-- The normalizer's output never exceeds `maxTSVectorPositions` entries. -/
theorem sortAndUniq_length_le (l : List tsPosition) :
    (sortAndUniqTSPositions l).length ≤ maxTSVectorPositions := by
  rw [sortAndUniqTSPositions]
  by_cases h : l.length ≤ 1
  · rw [if_pos h]
    exact Nat.le_trans h (by norm_num [maxTSVectorPositions])
  · rw [if_neg h]
    by_cases h2 : (uniqByPos (sortByPos l)).length > maxTSVectorPositions
    · simp only [h2, if_true]
      exact List.length_take_le _ _
    · simp only [h2, if_false]
      exact Nat.le_of_not_lt h2

theorem sortByPos_eq_self : ∀ l : List tsPosition, List.Pairwise posLt l → sortByPos l = l
  | [], _ => rfl
  | p :: rest, h => by
      rw [List.pairwise_cons] at h
      rw [sortByPos, sortByPos_eq_self rest h.2]
      cases rest with
      | nil => rfl
      | cons q rest2 =>
          have hq := h.1 q (List.mem_cons_self _ _)
          simp only [posLt] at hq
          rw [insertByPos, if_pos hq]

theorem uniqByPosFrom_eq_self : ∀ (last : tsPosition) (l : List tsPosition),
    List.Pairwise posLt l → (∀ x ∈ l, last.position < x.position) →
    uniqByPosFrom last l = l
  | _, [], _, _ => rfl
  | last, p :: rest, h, hb => by
      rw [List.pairwise_cons] at h
      rw [uniqByPosFrom, if_pos]
      · rw [uniqByPosFrom_eq_self p rest h.2 h.1]
      · simp only [bne_iff_ne, ne_eq]
        exact Nat.ne_of_gt (hb p (List.mem_cons_self _ _))

theorem uniqByPos_eq_self : ∀ l : List tsPosition, List.Pairwise posLt l → uniqByPos l = l
  | [], _ => rfl
  | p :: rest, h => by
      rw [List.pairwise_cons] at h
      rw [uniqByPos, uniqByPosFrom_eq_self p rest h.2 h.1]

/-- Normalizing an already sorted, deduplicated, size-bounded list is a
no-op. -/
theorem sortAndUniq_eq_self (l : List tsPosition) (h : List.Pairwise posLt l)
    (hlen : l.length ≤ maxTSVectorPositions) : sortAndUniqTSPositions l = l := by
  rw [sortAndUniqTSPositions]
  by_cases h1 : l.length ≤ 1
  · rw [if_pos h1]
  · rw [if_neg h1]
    simp only [sortByPos_eq_self l h, uniqByPos_eq_self l h]
    rw [if_neg (Nat.not_lt.mpr hlen)]

/-! ## Leaf evaluation -/

/-- Exact-leaf evaluation in the position-set evaluator: on a sorted
vector it returns the positions stored under the query lexeme (width 0,
not inverted), the empty list when the lexeme is absent. -/
theorem evalW_term_exact (v : TSVector) (t0 : tsTerm) (hv : vecLexSorted v)
    (hpm : prefixMatchOf t0 = false) :
    ∃ L, evalWithinFollowedBy v (.term t0) = .ok ⟨L, 0, false⟩ ∧
      (L = [] ∨ ∃ e ∈ v, e.lexeme = t0.lexeme ∧ L = e.positions) ∧
      (∀ p, p ∈ L ↔ ∃ e ∈ v, e.lexeme = t0.lexeme ∧ p ∈ e.positions) := by
  by_cases hex : ∃ e ∈ v, e.lexeme = t0.lexeme
  · obtain ⟨e, he, hlex⟩ := hex
    obtain ⟨hlt, hfound⟩ := searchVec_found hv he t0.lexeme hlex
    have hsome : v[searchVec v t0.lexeme]? = some (v[searchVec v t0.lexeme]) :=
      List.getElem?_eq_getElem hlt
    have hmem : v[searchVec v t0.lexeme] ∈ v := List.getElem_mem hlt
    refine ⟨(v[searchVec v t0.lexeme]).positions, ?_, ?_, ?_⟩
    · simp only [evalWithinFollowedBy, hsome, hpm, Bool.false_eq_true, if_false]
      simp [hfound]
    · exact Or.inr ⟨_, hmem, hfound, rfl⟩
    · intro p
      constructor
      · intro hp
        exact ⟨_, hmem, hfound, hp⟩
      · rintro ⟨e', he', hlex', hp⟩
        have he'' : e' = v[searchVec v t0.lexeme] :=
          vecLexSorted_unique hv he' hmem (by rw [hlex', hfound])
        rwa [he''] at hp
  · push_neg at hex
    refine ⟨[], ?_, Or.inl rfl, ?_⟩
    · rcases hvi : v[searchVec v t0.lexeme]? with _ | e
      · simp only [evalWithinFollowedBy, hvi]
      · have hne : e.lexeme ≠ t0.lexeme := hex e (List.getElem?_mem hvi)
        simp only [evalWithinFollowedBy, hvi, hpm, Bool.false_eq_true, if_false]
        rw [if_pos (by simpa [bne_iff_ne] using hne)]
    · intro p
      simp only [List.not_mem_nil, false_iff]
      rintro ⟨e', he', hlex', _⟩
      exact hex e' he' hlex'

theorem mem_collectPrefixPositions (p : tsPosition) (target : String) :
    ∀ ts : List tsTerm, p ∈ collectPrefixPositions target ts →
      ∃ e ∈ ts, p ∈ e.positions
  | [], h => by simp [collectPrefixPositions] at h
  | e :: rest, h => by
      rw [collectPrefixPositions] at h
      by_cases hpre : goHasPrefix e.lexeme.data target.data = true
      · rw [if_pos hpre] at h
        rcases List.mem_append.mp h with h | h
        · exact ⟨e, List.mem_cons_self _ _, h⟩
        · obtain ⟨e', he', hp⟩ := mem_collectPrefixPositions p target rest h
          exact ⟨e', List.mem_cons_of_mem _ he', hp⟩
      · rw [if_neg hpre] at h
        cases h

/-- Leaf evaluation in the position-set evaluator always succeeds, with a
width-0, non-inverted result whose entries are strictly sorted and drawn
from the vector's stored positions (needs no lexeme-sortedness). -/
theorem evalW_term_sorted (v : TSVector) (t0 : tsTerm)
    (hpos : vecPosSorted v) (M : Nat)
    (hM : ∀ e ∈ v, ∀ p ∈ e.positions, p.position ≤ M) :
    ∃ L, evalWithinFollowedBy v (.term t0) = .ok ⟨L, 0, false⟩ ∧
      List.Pairwise posLt L ∧ ∀ p ∈ L, p.position ≤ M := by
  rcases hvi : v[searchVec v t0.lexeme]? with _ | e
  · refine ⟨[], ?_, List.Pairwise.nil, by simp⟩
    simp only [evalWithinFollowedBy, hvi]
  · have hmem : e ∈ v := List.getElem?_mem hvi
    by_cases hpm : prefixMatchOf t0 = true
    · refine ⟨sortAndUniqTSPositions
        (collectPrefixPositions t0.lexeme (v.drop (searchVec v t0.lexeme))), ?_, ?_, ?_⟩
      · simp only [evalWithinFollowedBy, hvi, hpm, if_true]
      · exact sortAndUniq_pairwise _
      · intro p hp
        have hcol := mem_sortAndUniq p _ hp
        obtain ⟨e', he', hpe'⟩ := mem_collectPrefixPositions p _ _ hcol
        exact hM e' (List.drop_subset _ v he') p hpe'
    · have hpm' : prefixMatchOf t0 = false := by
        revert hpm; cases prefixMatchOf t0 <;> simp
      by_cases hne : e.lexeme = t0.lexeme
      · refine ⟨e.positions, ?_, hpos e hmem, fun p hp => hM e hmem p hp⟩
        simp only [evalWithinFollowedBy, hvi, hpm', Bool.false_eq_true, if_false]
        simp [hne]
      · refine ⟨[], ?_, List.Pairwise.nil, by simp⟩
        simp only [evalWithinFollowedBy, hvi, hpm', Bool.false_eq_true, if_false]
        rw [if_pos (by simpa [bne_iff_ne] using hne)]

/-- The boolean evaluator's leaf case never errors. -/
theorem evalNode_term_isOk (v : TSVector) (t0 : tsTerm) :
    ∃ b, evalNode v (.term t0) = .ok b := by
  rcases hvi : v[searchVec v t0.lexeme]? with _ | e
  · exact ⟨false, by simp only [evalNode, hvi]⟩
  · by_cases hpm : prefixMatchOf t0 = true
    · exact ⟨goHasPrefix e.lexeme.data t0.lexeme.data,
        by simp only [evalNode, hvi, hpm, if_true]⟩
    · have hpm' : prefixMatchOf t0 = false := by
        revert hpm; cases prefixMatchOf t0 <;> simp
      exact ⟨e.lexeme == t0.lexeme,
        by simp only [evalNode, hvi, hpm', Bool.false_eq_true, if_false]⟩

/-- Exact leaf matching in the boolean evaluator: true exactly when the
lexeme is present in the sorted vector. -/
theorem evalNode_term_exact_iff (v : TSVector) (t0 : tsTerm) (hv : vecLexSorted v)
    (hpm : prefixMatchOf t0 = false) :
    evalNode v (.term t0) = .ok true ↔ ∃ e ∈ v, e.lexeme = t0.lexeme := by
  constructor
  · intro h
    rcases hvi : v[searchVec v t0.lexeme]? with _ | e
    · simp only [evalNode, hvi] at h
      simp at h
    · simp only [evalNode, hvi, hpm, Bool.false_eq_true, if_false] at h
      have hbeq : (e.lexeme == t0.lexeme) = true := by simpa using h
      exact ⟨e, List.getElem?_mem hvi, by simpa using hbeq⟩
  · rintro ⟨e, he, hlex⟩
    obtain ⟨hlt, hfound⟩ := searchVec_found hv he t0.lexeme hlex
    have hsome : v[searchVec v t0.lexeme]? = some (v[searchVec v t0.lexeme]) :=
      List.getElem?_eq_getElem hlt
    simp only [evalNode, hsome, hpm, Bool.false_eq_true, if_false]
    simp [hfound]

/-- Prefix leaf matching in the boolean evaluator: true exactly when some
lexeme of the sorted vector extends the query lexeme. The evaluator only
inspects the entry the binary search lands on; by betweenness in the
bytewise order this entry has the prefix whenever any entry does. -/
theorem evalNode_term_star_iff (v : TSVector) (t0 : tsTerm) (hv : vecLexSorted v)
    (hpm : prefixMatchOf t0 = true) :
    evalNode v (.term t0) = .ok true ↔
      ∃ e ∈ v, goHasPrefix e.lexeme.data t0.lexeme.data = true := by
  constructor
  · intro h
    rcases hvi : v[searchVec v t0.lexeme]? with _ | e
    · simp only [evalNode, hvi] at h
      simp at h
    · simp only [evalNode, hvi, hpm, if_true] at h
      exact ⟨e, List.getElem?_mem hvi, by simpa using h⟩
  · rintro ⟨e, he, hgp⟩
    have hpred : strLeB t0.lexeme.data e.lexeme.data = true := by
      rw [strLeB_eq_true_iff]
      exact goHasPrefix_not_lt hgp
    have hlt : v.findIdx (fun t => strLeB t0.lexeme.data t.lexeme.data) < v.length :=
      List.findIdx_lt_length_of_exists ⟨e, he, by simpa using hpred⟩
    have hlt2 : searchVec v t0.lexeme < v.length := hlt
    have hfound : strLeB t0.lexeme.data
        (v[v.findIdx (fun t => strLeB t0.lexeme.data t.lexeme.data)]).lexeme.data = true := by
      simpa using @List.findIdx_getElem _ (fun t => strLeB t0.lexeme.data t.lexeme.data) v hlt
    obtain ⟨j, hj, hje⟩ := List.mem_iff_getElem.mp he
    have hple : ¬ (j < v.findIdx (fun t => strLeB t0.lexeme.data t.lexeme.data)) := by
      intro hlt3
      have h0 := List.not_of_lt_findIdx hlt3
      simp only [hje] at h0
      rw [hpred] at h0
      cases h0
    have hxp : goHasPrefix
        (v[v.findIdx (fun t => strLeB t0.lexeme.data t.lexeme.data)]).lexeme.data
        t0.lexeme.data = true := by
      rcases Nat.eq_or_lt_of_le (Nat.le_of_not_lt hple) with heq | hlt3
      · simp only [heq, hje]
        exact hgp
      · have hrel := (List.pairwise_iff_getElem.mp hv) _ j hlt hj hlt3
        rw [lexLt, hje] at hrel
        exact goHasPrefix_between hgp ((strLeB_eq_true_iff _ _).mp hfound)
          (strLtB_asymm hrel)
    have hsome : v[searchVec v t0.lexeme]? = some (v[searchVec v t0.lexeme]) :=
      List.getElem?_eq_getElem hlt2
    simp only [evalNode, hsome, hpm, if_true]
    exact congrArg Except.ok hxp

/-! ## Unfolded forms of the position-set evaluator's operator cases -/

theorem evalW_not_ok (v : TSVector) (x : tsNode) (lP : tsPositionSet)
    (h : evalWithinFollowedBy v x = .ok lP) :
    evalWithinFollowedBy v (.not x) = .ok ⟨lP.positions, lP.width, !lP.invert⟩ := by
  simp only [evalWithinFollowedBy, h]

theorem evalW_or_ok (v : TSVector) (l r : tsNode) (lP rP : tsPositionSet)
    (h1 : evalWithinFollowedBy v l = .ok lP) (h2 : evalWithinFollowedBy v r = .ok rP) :
    evalWithinFollowedBy v (.or l r) = .ok
      ⟨evalFollowedByLoop
          (if lP.invert && rP.invert then emitMatches
           else if lP.invert then emitLeftUnmatched
           else if rP.invert then emitRightUnmatched
           else emitMatches ||| emitLeftUnmatched ||| emitRightUnmatched)
          ((if rP.width > lP.width then rP.width else lP.width) - lP.width)
          ((if rP.width > lP.width then rP.width else lP.width) - rP.width)
          lP.positions rP.positions,
        (if rP.width > lP.width then rP.width else lP.width),
        (lP.invert || rP.invert)⟩ := by
  by_cases hl : lP.invert <;> by_cases hr : rP.invert <;>
    simp [evalWithinFollowedBy, h1, h2, evalFollowedBy, hl, hr]

theorem evalW_fb_ok (v : TSVector) (n : Nat) (l r : tsNode) (lP rP : tsPositionSet)
    (h1 : evalWithinFollowedBy v l = .ok lP) (h2 : evalWithinFollowedBy v r = .ok rP) :
    evalWithinFollowedBy v (.followedby n l r) = .ok
      ⟨evalFollowedByLoop
          (if lP.invert && rP.invert then
             emitMatches ||| emitLeftUnmatched ||| emitRightUnmatched
           else if lP.invert then emitRightUnmatched
           else if rP.invert then emitLeftUnmatched
           else emitMatches)
          (n + rP.width) 0 lP.positions rP.positions,
        (n + rP.width) + lP.width,
        (lP.invert && rP.invert)⟩ := by
  by_cases hl : lP.invert <;> by_cases hr : rP.invert <;>
    simp [evalWithinFollowedBy, h1, h2, evalFollowedBy, hl, hr]

theorem evalW_and_ok (v : TSVector) (l r : tsNode) (lP rP : tsPositionSet)
    (h1 : evalWithinFollowedBy v l = .ok lP) (h2 : evalWithinFollowedBy v r = .ok rP) :
    evalWithinFollowedBy v (.and l r) = .ok
      ⟨evalFollowedByLoop
          (if lP.invert && rP.invert then
             emitMatches ||| emitLeftUnmatched ||| emitRightUnmatched
           else if lP.invert then emitRightUnmatched
           else if rP.invert then emitLeftUnmatched
           else emitMatches)
          ((if rP.width > lP.width then rP.width else lP.width) - lP.width)
          ((if rP.width > lP.width then rP.width else lP.width) - rP.width)
          lP.positions rP.positions,
        (if rP.width > lP.width then rP.width else lP.width),
        (lP.invert && rP.invert)⟩ := by
  by_cases hl : lP.invert <;> by_cases hr : rP.invert <;>
    simp [evalWithinFollowedBy, h1, h2, evalFollowedBy, hl, hr]

theorem evalNode_fb (v : TSVector) (n : Nat) (l r : tsNode) (ps : tsPositionSet)
    (h : evalWithinFollowedBy v (.followedby n l r) = .ok ps) :
    evalNode v (.followedby n l r) = .ok (decide (0 < ps.positions.length)) := by
  simp only [evalNode, h]

/-- The Go idiom `width = l; if r > width { width = r }` computes the
maximum. -/
theorem goMax_eq (a b : Nat) : (if b > a then b else a) = max a b := by
  by_cases h : b > a
  · rw [if_pos h, Nat.max_eq_right (Nat.le_of_lt h)]
  · rw [if_neg h, Nat.max_eq_left (Nat.le_of_not_lt h)]

/-- The match width computed by the position-set evaluator, as a function
of the query tree alone: 0 at a leaf, unchanged under `not`, the maximum
of the children under `and`/`or`, and `followedN + width(r) + width(l)`
under followed-by. -/
def qWidth : tsNode → Nat
  | .term _ => 0
  | .not x => qWidth x
  | .and l r => max (qWidth l) (qWidth r)
  | .or l r => max (qWidth l) (qWidth r)
  | .followedby n l r => (n + qWidth r) + qWidth l
  | .unknown _ => 0

/-- The width of every successful position-set evaluation equals the
statically determined query width. -/
theorem evalW_width (v : TSVector) : ∀ (q : tsNode) (res : tsPositionSet),
    evalWithinFollowedBy v q = .ok res → res.width = qWidth q := by
  intro q
  induction q with
  | term t0 =>
      intro res h
      rcases hvi : v[searchVec v t0.lexeme]? with _ | e <;>
        simp only [evalWithinFollowedBy, hvi] at h
      · cases h
        rfl
      · by_cases hpm : prefixMatchOf t0 = true
        · simp only [hpm, if_true] at h
          cases h
          rfl
        · have hpm' : prefixMatchOf t0 = false := by
            revert hpm; cases prefixMatchOf t0 <;> simp
          simp only [hpm', Bool.false_eq_true, if_false] at h
          by_cases hne : (e.lexeme != t0.lexeme) = true
          · rw [if_pos hne] at h
            cases h
            rfl
          · rw [if_neg hne] at h
            cases h
            rfl
  | not x ih =>
      intro res h
      rcases hx : evalWithinFollowedBy v x with e | xP
      · simp only [evalWithinFollowedBy, hx] at h
        exact Except.noConfusion h
      · rw [evalW_not_ok v x xP hx] at h
        cases h
        exact ih xP hx
  | and l r ihl ihr =>
      intro res h
      rcases hL : evalWithinFollowedBy v l with e | lP
      · simp only [evalWithinFollowedBy, hL] at h
        exact Except.noConfusion h
      · rcases hR : evalWithinFollowedBy v r with e | rP
        · simp only [evalWithinFollowedBy, hL, hR] at h
          exact Except.noConfusion h
        · rw [evalW_and_ok v l r lP rP hL hR] at h
          cases h
          simp only [qWidth]
          rw [goMax_eq, ihl lP hL, ihr rP hR]
  | or l r ihl ihr =>
      intro res h
      rcases hL : evalWithinFollowedBy v l with e | lP
      · simp only [evalWithinFollowedBy, hL] at h
        exact Except.noConfusion h
      · rcases hR : evalWithinFollowedBy v r with e | rP
        · simp only [evalWithinFollowedBy, hL, hR] at h
          exact Except.noConfusion h
        · rw [evalW_or_ok v l r lP rP hL hR] at h
          cases h
          simp only [qWidth]
          rw [goMax_eq, ihl lP hL, ihr rP hR]
  | followedby n l r ihl ihr =>
      intro res h
      rcases hL : evalWithinFollowedBy v l with e | lP
      · simp only [evalWithinFollowedBy, hL] at h
        exact Except.noConfusion h
      · rcases hR : evalWithinFollowedBy v r with e | rP
        · simp only [evalWithinFollowedBy, hL, hR] at h
          exact Except.noConfusion h
        · rw [evalW_fb_ok v n l r lP rP hL hR] at h
          cases h
          simp only [qWidth]
          rw [ihl lP hL, ihr rP hR]
  | unknown k =>
      intro res h
      simp only [evalWithinFollowedBy] at h
      exact Except.noConfusion h

/-- In left-unmatched-only mode every emitted entry is an adjusted left
input position. -/
theorem fbLoop_mem_left (lo ro : Nat) : ∀ ls rs : List tsPosition,
    ∀ x ∈ evalFollowedByLoop emitLeftUnmatched lo ro ls rs,
      ∃ p ∈ ls, x = ⟨(p.position + lo) % 65536, 0⟩ := by
  intro ls rs
  induction ls, rs using evalFollowedByLoop.induct emitLeftUnmatched lo ro with
  | case1 => intro x hx; rw [fbLoop_nil_nil] at hx; cases hx
  | case2 r rs h => intro x hx; rw [fbLoop_nil_cons, if_pos h] at hx; cases hx
  | case3 r rs h ih => exact absurd (by decide) h
  | case4 l ls h => exact absurd h (by decide)
  | case5 l ls h ih =>
      intro x hx
      rw [fbLoop_cons_nil, if_neg h] at hx
      rcases List.mem_cons.mp hx with rfl | hx
      · exact ⟨l, List.mem_cons_self _ _, rfl⟩
      · obtain ⟨p, hp, he⟩ := ih x hx
        exact ⟨p, List.mem_cons_of_mem _ hp, he⟩
  | case6 l ls r rs _ _ hlt ih =>
      intro x hx
      rw [fbLoop_cons_cons, if_pos hlt, if_pos (by decide), List.singleton_append] at hx
      rcases List.mem_cons.mp hx with rfl | hx
      · exact ⟨l, List.mem_cons_self _ _, rfl⟩
      · obtain ⟨p, hp, he⟩ := ih x hx
        exact ⟨p, List.mem_cons_of_mem _ hp, he⟩
  | case7 l ls r rs _ _ hnlt heq ih =>
      intro x hx
      rw [fbLoop_cons_cons, if_neg hnlt, if_pos heq, if_neg (by decide),
        List.nil_append] at hx
      obtain ⟨p, hp, he⟩ := ih x hx
      exact ⟨p, List.mem_cons_of_mem _ hp, he⟩
  | case8 l ls r rs _ _ hnlt hne ih =>
      intro x hx
      rw [fbLoop_cons_cons, if_neg hnlt, if_neg hne, if_neg (by decide),
        List.nil_append] at hx
      exact ih x hx

/-- When every adjusted left position lies strictly below every adjusted
right position, the union-mode merge emits all left entries and then all
right entries. -/
theorem fbLoop_union_disjoint (lo ro : Nat) : ∀ ls rs : List tsPosition,
    (∀ p ∈ ls, ∀ q ∈ rs, p.position + lo < q.position + ro) →
    evalFollowedByLoop (emitMatches ||| emitLeftUnmatched ||| emitRightUnmatched)
        lo ro ls rs =
      ls.map (fun p => ⟨(p.position + lo) % 65536, 0⟩) ++
        rs.map (fun q => ⟨(q.position + ro) % 65536, 0⟩) := by
  intro ls rs
  induction ls, rs using
      evalFollowedByLoop.induct (emitMatches ||| emitLeftUnmatched ||| emitRightUnmatched) lo ro with
  | case1 => intro _; rw [fbLoop_nil_nil]; rfl
  | case2 r rs h => exact absurd h (by decide)
  | case3 r rs h ih =>
      intro _
      rw [fbLoop_nil_cons, if_neg h, ih (by simp)]
      simp
  | case4 l ls h => exact absurd h (by decide)
  | case5 l ls h ih =>
      intro _
      rw [fbLoop_cons_nil, if_neg h, ih (by simp)]
      simp
  | case6 l ls r rs _ _ hlt ih =>
      intro hd
      rw [fbLoop_cons_cons, if_pos hlt, if_pos (by decide), List.singleton_append,
        ih (fun p hp q hq => hd p (List.mem_cons_of_mem _ hp) q hq)]
      simp
  | case7 l ls r rs _ _ hnlt heq ih =>
      intro hd
      exact absurd (hd l (List.mem_cons_self _ _) r (List.mem_cons_self _ _)) hnlt
  | case8 l ls r rs _ _ hnlt hne ih =>
      intro hd
      exact absurd (hd l (List.mem_cons_self _ _) r (List.mem_cons_self _ _)) hnlt

/-- Main invariant of the position-set evaluator: on a well-formed vector
(per-term lists strictly sorted, positions bounded by `M`), and provided
`M` plus the query's static width stays below 2^16 (so no offset-adjusted
position can wrap around in the `uint16` conversions), every successful
evaluation returns a strictly sorted position list whose entries are
bounded by `M + qWidth q`. -/
theorem evalW_sorted_bounded (v : TSVector) (M : Nat) (hpos : vecPosSorted v)
    (hM : ∀ e ∈ v, ∀ p ∈ e.positions, p.position ≤ M) :
    ∀ q : tsNode, M + qWidth q < 65536 →
    ∀ res, evalWithinFollowedBy v q = .ok res →
      List.Pairwise posLt res.positions ∧
        ∀ p ∈ res.positions, p.position ≤ M + qWidth q := by
  intro q
  induction q with
  | term t0 =>
      intro hw res h
      obtain ⟨L, he, hp, hb⟩ := evalW_term_sorted v t0 hpos M hM
      rw [he] at h
      cases h
      exact ⟨hp, fun p hp2 => Nat.le_trans (hb p hp2) (Nat.le_add_right M _)⟩
  | not x ih =>
      intro hw res h
      rcases hx : evalWithinFollowedBy v x with e | xP
      · simp only [evalWithinFollowedBy, hx] at h
        exact Except.noConfusion h
      · rw [evalW_not_ok v x xP hx] at h
        cases h
        exact ih hw xP hx
  | and l r ihl ihr =>
      intro hw res h
      rcases hL : evalWithinFollowedBy v l with e | lP
      · simp only [evalWithinFollowedBy, hL] at h
        exact Except.noConfusion h
      · rcases hR : evalWithinFollowedBy v r with e | rP
        · simp only [evalWithinFollowedBy, hL, hR] at h
          exact Except.noConfusion h
        · rw [evalW_and_ok v l r lP rP hL hR] at h
          cases h
          have hlw : lP.width = qWidth l := evalW_width v l lP hL
          have hrw : rP.width = qWidth r := evalW_width v r rP hR
          have hql : M + qWidth l < 65536 := by
            simp only [qWidth] at hw; omega
          have hqr : M + qWidth r < 65536 := by
            simp only [qWidth] at hw; omega
          obtain ⟨hLp, hLb⟩ := ihl hql lP hL
          obtain ⟨hRp, hRb⟩ := ihr hqr rP hR
          constructor
          · apply fbLoop_pairwise _ _ _ _ _ hLp hRp
            · intro p hp
              have hb := hLb p hp
              rw [goMax_eq, hlw, hrw]
              simp only [qWidth] at hw
              omega
            · intro p hp
              have hb := hRb p hp
              rw [goMax_eq, hlw, hrw]
              simp only [qWidth] at hw
              omega
          · intro p hp
            simp only [qWidth]
            rcases fbLoop_mem _ _ _ _ _ p hp with ⟨x, hx, he⟩ | ⟨x, hx, he⟩
            · subst he
              have hb := hLb x hx
              have hmod := Nat.mod_le (x.position +
                ((if rP.width > lP.width then rP.width else lP.width) - lP.width)) 65536
              simp only []
              rw [goMax_eq, hlw, hrw] at hmod ⊢
              omega
            · subst he
              have hb := hRb x hx
              have hmod := Nat.mod_le (x.position +
                ((if rP.width > lP.width then rP.width else lP.width) - rP.width)) 65536
              simp only []
              rw [goMax_eq, hlw, hrw] at hmod ⊢
              omega
  | or l r ihl ihr =>
      intro hw res h
      rcases hL : evalWithinFollowedBy v l with e | lP
      · simp only [evalWithinFollowedBy, hL] at h
        exact Except.noConfusion h
      · rcases hR : evalWithinFollowedBy v r with e | rP
        · simp only [evalWithinFollowedBy, hL, hR] at h
          exact Except.noConfusion h
        · rw [evalW_or_ok v l r lP rP hL hR] at h
          cases h
          have hlw : lP.width = qWidth l := evalW_width v l lP hL
          have hrw : rP.width = qWidth r := evalW_width v r rP hR
          have hql : M + qWidth l < 65536 := by
            simp only [qWidth] at hw; omega
          have hqr : M + qWidth r < 65536 := by
            simp only [qWidth] at hw; omega
          obtain ⟨hLp, hLb⟩ := ihl hql lP hL
          obtain ⟨hRp, hRb⟩ := ihr hqr rP hR
          constructor
          · apply fbLoop_pairwise _ _ _ _ _ hLp hRp
            · intro p hp
              have hb := hLb p hp
              rw [goMax_eq, hlw, hrw]
              simp only [qWidth] at hw
              omega
            · intro p hp
              have hb := hRb p hp
              rw [goMax_eq, hlw, hrw]
              simp only [qWidth] at hw
              omega
          · intro p hp
            simp only [qWidth]
            rcases fbLoop_mem _ _ _ _ _ p hp with ⟨x, hx, he⟩ | ⟨x, hx, he⟩
            · subst he
              have hb := hLb x hx
              have hmod := Nat.mod_le (x.position +
                ((if rP.width > lP.width then rP.width else lP.width) - lP.width)) 65536
              simp only []
              rw [goMax_eq, hlw, hrw] at hmod ⊢
              omega
            · subst he
              have hb := hRb x hx
              have hmod := Nat.mod_le (x.position +
                ((if rP.width > lP.width then rP.width else lP.width) - rP.width)) 65536
              simp only []
              rw [goMax_eq, hlw, hrw] at hmod ⊢
              omega
  | followedby n l r ihl ihr =>
      intro hw res h
      rcases hL : evalWithinFollowedBy v l with e | lP
      · simp only [evalWithinFollowedBy, hL] at h
        exact Except.noConfusion h
      · rcases hR : evalWithinFollowedBy v r with e | rP
        · simp only [evalWithinFollowedBy, hL, hR] at h
          exact Except.noConfusion h
        · rw [evalW_fb_ok v n l r lP rP hL hR] at h
          cases h
          have hlw : lP.width = qWidth l := evalW_width v l lP hL
          have hrw : rP.width = qWidth r := evalW_width v r rP hR
          have hql : M + qWidth l < 65536 := by
            simp only [qWidth] at hw; omega
          have hqr : M + qWidth r < 65536 := by
            simp only [qWidth] at hw; omega
          obtain ⟨hLp, hLb⟩ := ihl hql lP hL
          obtain ⟨hRp, hRb⟩ := ihr hqr rP hR
          constructor
          · apply fbLoop_pairwise _ _ _ _ _ hLp hRp
            · intro p hp
              have hb := hLb p hp
              rw [hrw]
              simp only [qWidth] at hw
              omega
            · intro p hp
              have hb := hRb p hp
              simp only [qWidth] at hw
              omega
          · intro p hp
            simp only [qWidth]
            rcases fbLoop_mem _ _ _ _ _ p hp with ⟨x, hx, he⟩ | ⟨x, hx, he⟩
            · subst he
              have hb := hLb x hx
              have hmod := Nat.mod_le (x.position + (n + rP.width)) 65536
              simp only []
              rw [hrw] at hmod ⊢
              omega
            · subst he
              have hb := hRb x hx
              have hmod := Nat.mod_le (x.position + 0) 65536
              simp only []
              omega
  | unknown k =>
      intro hw res h
      simp only [evalWithinFollowedBy] at h
      exact Except.noConfusion h

/-! ## Claim theorems -/

/-- C6: for every sub-tree `x` and every document vector, evaluating
`not(x)` with the position-set evaluator returns a position set with
exactly the positions and the width of `x`'s evaluation and only the
invert flag changed, to its negation. -/
theorem claim_c6_not_frame (v : TSVector) (x : tsNode) (r : tsPositionSet)
    (h : evalWithinFollowedBy v x = .ok r) :
    evalWithinFollowedBy v (.not x) = .ok ⟨r.positions, r.width, !r.invert⟩ :=
  evalW_not_ok v x r h

theorem claim_c6_witness :
    evalWithinFollowedBy [⟨"a", [⟨1, 0⟩]⟩] (.not (.term ⟨"a", []⟩)) =
      .ok ⟨[⟨1, 0⟩], 0, true⟩ :=
  claim_c6_not_frame [⟨"a", [⟨1, 0⟩]⟩] (.term ⟨"a", []⟩) ⟨[⟨1, 0⟩], 0, false⟩ rfl

/-- C8: the boolean evaluator short-circuits: if the left operand
evaluates to false, `and` returns `(false, no error)` whatever the right
operand is (in particular a right operand with an invalid operator tag
produces no error); if the left operand evaluates to true, `or` returns
`(true, no error)` likewise; when the left operand does not determine the
result, an invalid right operand does produce the assertion error. -/
theorem claim_c8_short_circuit (v : TSVector) (l r : tsNode) (k : Nat) :
    (evalNode v l = .ok false → evalNode v (.and l r) = .ok false) ∧
    (evalNode v l = .ok true → evalNode v (.or l r) = .ok true) ∧
    (evalNode v l = .ok true →
      evalNode v (.and l (.unknown k)) = .error (.assertionFailed k)) ∧
    (evalNode v l = .ok false →
      evalNode v (.or l (.unknown k)) = .error (.assertionFailed k)) := by
  refine ⟨?_, ?_, ?_, ?_⟩ <;> intro h <;> simp [evalNode, h]

theorem claim_c8_witness :
    (evalNode [⟨"a", [⟨1, 0⟩]⟩] (.and (.term ⟨"zz", []⟩) (.unknown 99)) = .ok false) ∧
    (evalNode [⟨"a", [⟨1, 0⟩]⟩] (.or (.term ⟨"a", []⟩) (.unknown 99)) = .ok true) ∧
    (evalNode [⟨"a", [⟨1, 0⟩]⟩] (.and (.term ⟨"a", []⟩) (.unknown 99)) =
      .error (.assertionFailed 99)) ∧
    (evalNode [⟨"a", [⟨1, 0⟩]⟩] (.or (.term ⟨"zz", []⟩) (.unknown 99)) =
      .error (.assertionFailed 99)) :=
  ⟨(claim_c8_short_circuit [⟨"a", [⟨1, 0⟩]⟩] (.term ⟨"zz", []⟩) (.unknown 99) 99).1 rfl,
   (claim_c8_short_circuit [⟨"a", [⟨1, 0⟩]⟩] (.term ⟨"a", []⟩) (.unknown 99) 99).2.1 rfl,
   (claim_c8_short_circuit [⟨"a", [⟨1, 0⟩]⟩] (.term ⟨"a", []⟩) (.unknown 99) 99).2.2.1 rfl,
   (claim_c8_short_circuit [⟨"a", [⟨1, 0⟩]⟩] (.term ⟨"zz", []⟩) (.unknown 99) 99).2.2.2 rfl⟩

/-- C9: the normalizer is idempotent on normal forms: a position list that
is already strictly ascending (sorted, duplicate-free) with at most
`maxTSVectorPositions` entries is returned unchanged. -/
theorem claim_c9_normalizer_idempotent (l : List tsPosition)
    (hs : List.Pairwise posLt l) (hlen : l.length ≤ maxTSVectorPositions) :
    sortAndUniqTSPositions l = l :=
  sortAndUniq_eq_self l hs hlen

theorem claim_c9_witness :
    sortAndUniqTSPositions [⟨1, 0⟩, ⟨3, 0⟩] = [⟨1, 0⟩, ⟨3, 0⟩] :=
  claim_c9_normalizer_idempotent [⟨1, 0⟩, ⟨3, 0⟩] (by decide) (by decide)

/-- The §4.3 merge-mode table for AND / FOLLOWED-BY nodes, transcribed
from the specification text: given (l.invert, r.invert), the mode the
merge computes and whether the result is marked inverted.
(false,false) ↦ intersection, not inverted; (true,false) ↦ right-only
(unmatched-left), not inverted; (false,true) ↦ left-only
(unmatched-right), not inverted; (true,true) ↦ union (intersection plus
left-only plus right-only), inverted. -/
def andFbModeSpec : Bool → Bool → Nat × Bool
  | false, false => (emitMatches, false)
  | true, false => (emitRightUnmatched, false)
  | false, true => (emitLeftUnmatched, false)
  | true, true => (emitMatches ||| emitLeftUnmatched ||| emitRightUnmatched, true)

/-- The §4.3 merge-mode table for OR nodes, transcribed from the
specification text. (false,false) ↦ union (emit-all), not inverted;
(true,false) ↦ left-unmatched only, inverted; (false,true) ↦
right-unmatched only, inverted; (true,true) ↦ intersection, inverted. -/
def orModeSpec : Bool → Bool → Nat × Bool
  | false, false => (emitMatches ||| emitLeftUnmatched ||| emitRightUnmatched, false)
  | true, false => (emitLeftUnmatched, true)
  | false, true => (emitRightUnmatched, true)
  | true, true => (emitMatches, true)

/-- C2: for every `and`, `or` and `followed_by` node, the merge mode and
the result's invert flag are selected from the operands' invert flags
exactly as the §4.3 table prescribes. -/
theorem claim_c2_merge_mode_table (v : TSVector) (l r : tsNode)
    (lP rP : tsPositionSet)
    (h1 : evalWithinFollowedBy v l = .ok lP)
    (h2 : evalWithinFollowedBy v r = .ok rP) :
    (evalWithinFollowedBy v (.and l r) = .ok
       ⟨evalFollowedByLoop (andFbModeSpec lP.invert rP.invert).fst
           ((if rP.width > lP.width then rP.width else lP.width) - lP.width)
           ((if rP.width > lP.width then rP.width else lP.width) - rP.width)
           lP.positions rP.positions,
         if rP.width > lP.width then rP.width else lP.width,
         (andFbModeSpec lP.invert rP.invert).snd⟩) ∧
    (∀ n, evalWithinFollowedBy v (.followedby n l r) = .ok
       ⟨evalFollowedByLoop (andFbModeSpec lP.invert rP.invert).fst
           (n + rP.width) 0 lP.positions rP.positions,
         (n + rP.width) + lP.width,
         (andFbModeSpec lP.invert rP.invert).snd⟩) ∧
    (evalWithinFollowedBy v (.or l r) = .ok
       ⟨evalFollowedByLoop (orModeSpec lP.invert rP.invert).fst
           ((if rP.width > lP.width then rP.width else lP.width) - lP.width)
           ((if rP.width > lP.width then rP.width else lP.width) - rP.width)
           lP.positions rP.positions,
         if rP.width > lP.width then rP.width else lP.width,
         (orModeSpec lP.invert rP.invert).snd⟩) := by
  refine ⟨?_, ?_, ?_⟩
  · rw [evalW_and_ok v l r lP rP h1 h2]
    by_cases hl : lP.invert <;> by_cases hr : rP.invert <;>
      simp [hl, hr, andFbModeSpec]
  · intro n
    rw [evalW_fb_ok v n l r lP rP h1 h2]
    by_cases hl : lP.invert <;> by_cases hr : rP.invert <;>
      simp [hl, hr, andFbModeSpec]
  · rw [evalW_or_ok v l r lP rP h1 h2]
    by_cases hl : lP.invert <;> by_cases hr : rP.invert <;>
      simp [hl, hr, orModeSpec]

theorem claim_c2_witness :
    (evalWithinFollowedBy [⟨"a", [⟨1, 0⟩]⟩] (.and (.term ⟨"a", []⟩) (.not (.term ⟨"a", []⟩))) =
      .ok ⟨evalFollowedByLoop (andFbModeSpec false true).fst 0 0 [⟨1, 0⟩] [⟨1, 0⟩],
        0, (andFbModeSpec false true).snd⟩) ∧
    (evalWithinFollowedBy [⟨"a", [⟨1, 0⟩]⟩]
        (.followedby 5 (.term ⟨"a", []⟩) (.not (.term ⟨"a", []⟩))) =
      .ok ⟨evalFollowedByLoop (andFbModeSpec false true).fst 5 0 [⟨1, 0⟩] [⟨1, 0⟩],
        5, (andFbModeSpec false true).snd⟩) ∧
    (evalWithinFollowedBy [⟨"a", [⟨1, 0⟩]⟩] (.or (.term ⟨"a", []⟩) (.not (.term ⟨"a", []⟩))) =
      .ok ⟨evalFollowedByLoop (orModeSpec false true).fst 0 0 [⟨1, 0⟩] [⟨1, 0⟩],
        0, (orModeSpec false true).snd⟩) :=
  ⟨(claim_c2_merge_mode_table [⟨"a", [⟨1, 0⟩]⟩] (.term ⟨"a", []⟩) (.not (.term ⟨"a", []⟩))
      ⟨[⟨1, 0⟩], 0, false⟩ ⟨[⟨1, 0⟩], 0, true⟩ rfl rfl).1,
   (claim_c2_merge_mode_table [⟨"a", [⟨1, 0⟩]⟩] (.term ⟨"a", []⟩) (.not (.term ⟨"a", []⟩))
      ⟨[⟨1, 0⟩], 0, false⟩ ⟨[⟨1, 0⟩], 0, true⟩ rfl rfl).2.1 5,
   (claim_c2_merge_mode_table [⟨"a", [⟨1, 0⟩]⟩] (.term ⟨"a", []⟩) (.not (.term ⟨"a", []⟩))
      ⟨[⟨1, 0⟩], 0, false⟩ ⟨[⟨1, 0⟩], 0, true⟩ rfl rfl).2.2⟩

/-- C3: under `followed_by(l, r, distance)` the right operand's merge
offset is 0, the left operand's offset is `distance + width(r)`, and the
returned width is that left offset plus `width(l)`; under `and`/`or` both
operands are aligned to the maximum of the two widths, each side's offset
being that common width minus its own width. -/
theorem claim_c3_offsets_width (v : TSVector) (l r : tsNode)
    (lP rP : tsPositionSet)
    (h1 : evalWithinFollowedBy v l = .ok lP)
    (h2 : evalWithinFollowedBy v r = .ok rP) :
    (∀ n, ∃ m b, evalWithinFollowedBy v (.followedby n l r) = .ok
        ⟨evalFollowedByLoop m (n + rP.width) 0 lP.positions rP.positions,
          (n + rP.width) + lP.width, b⟩) ∧
    (∃ m b, evalWithinFollowedBy v (.and l r) = .ok
        ⟨evalFollowedByLoop m (max lP.width rP.width - lP.width)
            (max lP.width rP.width - rP.width) lP.positions rP.positions,
          max lP.width rP.width, b⟩) ∧
    (∃ m b, evalWithinFollowedBy v (.or l r) = .ok
        ⟨evalFollowedByLoop m (max lP.width rP.width - lP.width)
            (max lP.width rP.width - rP.width) lP.positions rP.positions,
          max lP.width rP.width, b⟩) := by
  refine ⟨?_, ?_, ?_⟩
  · intro n
    exact ⟨_, _, evalW_fb_ok v n l r lP rP h1 h2⟩
  · refine ⟨(if lP.invert && rP.invert then
        emitMatches ||| emitLeftUnmatched ||| emitRightUnmatched
      else if lP.invert then emitRightUnmatched
      else if rP.invert then emitLeftUnmatched
      else emitMatches), lP.invert && rP.invert, ?_⟩
    rw [evalW_and_ok v l r lP rP h1 h2, goMax_eq]
  · refine ⟨(if lP.invert && rP.invert then emitMatches
      else if lP.invert then emitLeftUnmatched
      else if rP.invert then emitRightUnmatched
      else emitMatches ||| emitLeftUnmatched ||| emitRightUnmatched),
      lP.invert || rP.invert, ?_⟩
    rw [evalW_or_ok v l r lP rP h1 h2, goMax_eq]

theorem claim_c3_witness :
    (∃ m b, evalWithinFollowedBy [⟨"a", [⟨1, 0⟩]⟩]
        (.followedby 5 (.term ⟨"a", []⟩) (.not (.term ⟨"a", []⟩))) =
      .ok ⟨evalFollowedByLoop m 5 0 [⟨1, 0⟩] [⟨1, 0⟩], 5, b⟩) ∧
    (∃ m b, evalWithinFollowedBy [⟨"a", [⟨1, 0⟩]⟩]
        (.and (.term ⟨"a", []⟩) (.not (.term ⟨"a", []⟩))) =
      .ok ⟨evalFollowedByLoop m 0 0 [⟨1, 0⟩] [⟨1, 0⟩], 0, b⟩) ∧
    (∃ m b, evalWithinFollowedBy [⟨"a", [⟨1, 0⟩]⟩]
        (.or (.term ⟨"a", []⟩) (.not (.term ⟨"a", []⟩))) =
      .ok ⟨evalFollowedByLoop m 0 0 [⟨1, 0⟩] [⟨1, 0⟩], 0, b⟩) :=
  ⟨(claim_c3_offsets_width [⟨"a", [⟨1, 0⟩]⟩] (.term ⟨"a", []⟩) (.not (.term ⟨"a", []⟩))
      ⟨[⟨1, 0⟩], 0, false⟩ ⟨[⟨1, 0⟩], 0, true⟩ rfl rfl).1 5,
   (claim_c3_offsets_width [⟨"a", [⟨1, 0⟩]⟩] (.term ⟨"a", []⟩) (.not (.term ⟨"a", []⟩))
      ⟨[⟨1, 0⟩], 0, false⟩ ⟨[⟨1, 0⟩], 0, true⟩ rfl rfl).2.1,
   (claim_c3_offsets_width [⟨"a", [⟨1, 0⟩]⟩] (.term ⟨"a", []⟩) (.not (.term ⟨"a", []⟩))
      ⟨[⟨1, 0⟩], 0, false⟩ ⟨[⟨1, 0⟩], 0, true⟩ rfl rfl).2.2⟩

/-- C7: on a sorted document vector, a leaf query without the prefix
marker evaluates to true iff its lexeme is present in the vector, a leaf
query with the prefix marker evaluates to true iff some vector lexeme has
the query lexeme as a prefix, and a leaf never produces an error (an
absent term simply yields false). -/
theorem claim_c7_leaf_exactness (v : TSVector) (t0 : tsTerm) (hv : vecLexSorted v) :
    (∃ b, evalNode v (.term t0) = .ok b) ∧
    (prefixMatchOf t0 = false →
      (evalNode v (.term t0) = .ok true ↔ ∃ e ∈ v, e.lexeme = t0.lexeme)) ∧
    (prefixMatchOf t0 = true →
      (evalNode v (.term t0) = .ok true ↔
        ∃ e ∈ v, goHasPrefix e.lexeme.data t0.lexeme.data = true)) :=
  ⟨evalNode_term_isOk v t0,
   fun h => evalNode_term_exact_iff v t0 hv h,
   fun h => evalNode_term_star_iff v t0 hv h⟩

theorem claim_c7_witness :
    (evalNode [⟨"catalog", [⟨1, 0⟩]⟩] (.term ⟨"catalog", []⟩) = .ok true) ∧
    (evalNode [⟨"catalog", [⟨1, 0⟩]⟩] (.term ⟨"cat", [⟨0, 16⟩]⟩) = .ok true) :=
  ⟨((claim_c7_leaf_exactness [⟨"catalog", [⟨1, 0⟩]⟩] ⟨"catalog", []⟩
      (List.pairwise_singleton _ _)).2.1 rfl).mpr
      ⟨⟨"catalog", [⟨1, 0⟩]⟩, List.mem_cons_self _ _, rfl⟩,
   ((claim_c7_leaf_exactness [⟨"catalog", [⟨1, 0⟩]⟩] ⟨"cat", [⟨0, 16⟩]⟩
      (List.pairwise_singleton _ _)).2.2 rfl).mpr
      ⟨⟨"catalog", [⟨1, 0⟩]⟩, List.mem_cons_self _ _, by decide⟩⟩

/-- C10: every entry emitted by the sorted-list merge stores the
offset-adjusted comparison value reduced mod 2^16 (never the raw input
position): an emission always equals `(left position + left offset) mod
2^16` or `(right position + right offset) mod 2^16`; in particular, under
a followed-by node with a non-inverted left and inverted right operand
(left-unmatched mode), every emitted entry is `(position + distance +
width(r)) mod 2^16` for some left input position, wrapping around when
the adjusted value reaches 2^16. -/
theorem claim_c10_mod_u16 :
    (∀ mode lo ro : Nat, ∀ ls rs : List tsPosition,
      ∀ x ∈ evalFollowedByLoop mode lo ro ls rs,
        (∃ p ∈ ls, x.position = (p.position + lo) % 65536) ∨
        (∃ p ∈ rs, x.position = (p.position + ro) % 65536)) ∧
    (∀ (v : TSVector) (d : Nat) (l r : tsNode) (lP rP res : tsPositionSet),
      evalWithinFollowedBy v l = .ok lP →
      evalWithinFollowedBy v r = .ok rP →
      lP.invert = false → rP.invert = true →
      evalWithinFollowedBy v (.followedby d l r) = .ok res →
      ∀ x ∈ res.positions,
        ∃ p ∈ lP.positions, x.position = (p.position + (d + rP.width)) % 65536) := by
  constructor
  · intro mode lo ro ls rs x hx
    rcases fbLoop_mem mode lo ro ls rs x hx with ⟨p, hp, he⟩ | ⟨p, hp, he⟩
    · exact Or.inl ⟨p, hp, by rw [he]⟩
    · exact Or.inr ⟨p, hp, by rw [he]⟩
  · intro v d l r lP rP res h1 h2 hli hri hres x hx
    rw [evalW_fb_ok v d l r lP rP h1 h2] at hres
    simp only [hli, hri, Bool.false_and, Bool.false_eq_true, if_false, if_true] at hres
    cases hres
    obtain ⟨p, hp, he⟩ := fbLoop_mem_left (d + rP.width) 0 lP.positions rP.positions x hx
    exact ⟨p, hp, by rw [he]⟩

theorem claim_c10_witness :
    ∃ p ∈ ([⟨2, 0⟩] : List tsPosition),
      (0 : Nat) = (p.position + (65534 + 0)) % 65536 := by
  have h1 : evalWithinFollowedBy [⟨"b", [⟨2, 0⟩]⟩] (.term ⟨"b", []⟩) =
      .ok ⟨[⟨2, 0⟩], 0, false⟩ := rfl
  have h2 : evalWithinFollowedBy [⟨"b", [⟨2, 0⟩]⟩] (.not (.term ⟨"c", []⟩)) =
      .ok ⟨[], 0, true⟩ := rfl
  have h4 : evalWithinFollowedBy [⟨"b", [⟨2, 0⟩]⟩]
      (.followedby 65534 (.term ⟨"b", []⟩) (.not (.term ⟨"c", []⟩))) =
      .ok ⟨[⟨0, 0⟩], 65534, false⟩ := by
    rw [evalW_fb_ok _ 65534 _ _ _ _ h1 h2]
    show (Except.ok ⟨evalFollowedByLoop emitLeftUnmatched 65534 0 [⟨2, 0⟩] [], 65534, false⟩ :
        Except tsError tsPositionSet) = .ok ⟨[⟨0, 0⟩], 65534, false⟩
    rw [fbLoop_cons_nil, if_neg (by decide), fbLoop_nil_nil]
    norm_num
  exact (claim_c10_mod_u16).2 [⟨"b", [⟨2, 0⟩]⟩] 65534 (.term ⟨"b", []⟩)
    (.not (.term ⟨"c", []⟩)) ⟨[⟨2, 0⟩], 0, false⟩ ⟨[], 0, true⟩ ⟨[⟨0, 0⟩], 65534, false⟩
    h1 h2 rfl rfl h4 ⟨0, 0⟩ (List.mem_cons_self _ _)

/-- C1: for every sorted, well-formed document vector and every query
`followed_by(leaf(l), leaf(r), d)` with two exact-match leaves, the
boolean evaluator returns no error, and returns true iff some occurrence
position `p` of lexeme `l` has `p + d` an occurrence position of lexeme
`r`. -/
theorem claim_c1_followedby_exact (v : TSVector) (tl tr : tsTerm) (d : Nat)
    (hv : vecLexSorted v) (hpos : vecPosSorted v)
    (hl : prefixMatchOf tl = false) (hr : prefixMatchOf tr = false) :
    ∃ b, evalNode v (.followedby d (.term tl) (.term tr)) = .ok b ∧
      (b = true ↔ ∃ p : Nat,
        (∃ e ∈ v, e.lexeme = tl.lexeme ∧ ∃ q ∈ e.positions, q.position = p) ∧
        (∃ e ∈ v, e.lexeme = tr.lexeme ∧ ∃ q ∈ e.positions, q.position = p + d)) := by
  obtain ⟨L, hLe, hLsrc, hLmem⟩ := evalW_term_exact v tl hv hl
  obtain ⟨R, hRe, hRsrc, hRmem⟩ := evalW_term_exact v tr hv hr
  have hfb : evalWithinFollowedBy v (.followedby d (.term tl) (.term tr)) =
      .ok ⟨evalFollowedByLoop emitMatches (d + 0) 0 L R, (d + 0) + 0, false⟩ :=
    evalW_fb_ok v d (.term tl) (.term tr) ⟨L, 0, false⟩ ⟨R, 0, false⟩ hLe hRe
  have hb := evalNode_fb v d _ _ _ hfb
  refine ⟨_, hb, ?_⟩
  constructor
  · intro hbt
    have hne : evalFollowedByLoop emitMatches (d + 0) 0 L R ≠ [] := by
      intro h0
      rw [decide_eq_true_iff] at hbt
      rw [h0] at hbt
      simp at hbt
    obtain ⟨p', hp', q', hq', heq⟩ := fbLoop_matches_sound (d + 0) 0 L R hne
    obtain ⟨e1, he1, hlx1, hpe1⟩ := (hLmem p').mp hp'
    obtain ⟨e2, he2, hlx2, hpe2⟩ := (hRmem q').mp hq'
    exact ⟨p'.position, ⟨e1, he1, hlx1, p', hpe1, rfl⟩,
      ⟨e2, he2, hlx2, q', hpe2, by omega⟩⟩
  · rintro ⟨p, ⟨e1, he1, hlx1, q1, hq1, hq1p⟩, ⟨e2, he2, hlx2, q2, hq2, hq2p⟩⟩
    have hLs : List.Pairwise posLt L := by
      rcases hLsrc with rfl | ⟨e, he, _, rfl⟩
      · exact List.Pairwise.nil
      · exact hpos e he
    have hRs : List.Pairwise posLt R := by
      rcases hRsrc with rfl | ⟨e, he, _, rfl⟩
      · exact List.Pairwise.nil
      · exact hpos e he
    have hne := fbLoop_matches_complete (d + 0) 0 L R hLs hRs
      ⟨q1, (hLmem q1).mpr ⟨e1, he1, hlx1, hq1⟩,
       q2, (hRmem q2).mpr ⟨e2, he2, hlx2, hq2⟩, by omega⟩
    rw [decide_eq_true_iff]
    exact List.length_pos.mpr hne

theorem claim_c1_witness :
    ∃ b, evalNode [⟨"cat", [⟨1, 0⟩]⟩, ⟨"dog", [⟨2, 0⟩]⟩]
        (.followedby 1 (.term ⟨"cat", []⟩) (.term ⟨"dog", []⟩)) = .ok b ∧
      (b = true ↔ ∃ p : Nat,
        (∃ e ∈ ([⟨"cat", [⟨1, 0⟩]⟩, ⟨"dog", [⟨2, 0⟩]⟩] : TSVector),
          e.lexeme = (⟨"cat", []⟩ : tsTerm).lexeme ∧ ∃ q ∈ e.positions, q.position = p) ∧
        (∃ e ∈ ([⟨"cat", [⟨1, 0⟩]⟩, ⟨"dog", [⟨2, 0⟩]⟩] : TSVector),
          e.lexeme = (⟨"dog", []⟩ : tsTerm).lexeme ∧ ∃ q ∈ e.positions, q.position = p + 1)) :=
  claim_c1_followedby_exact [⟨"cat", [⟨1, 0⟩]⟩, ⟨"dog", [⟨2, 0⟩]⟩]
    ⟨"cat", []⟩ ⟨"dog", []⟩ 1 (by decide) (by decide) rfl rfl

/-! ## C5: the 256-entry cap -/

/-- 256 positions 1..256 for the C5 counterexample. -/
def c5posA : List tsPosition := (List.range 256).map (fun i => ⟨i + 1, 0⟩)

/-- 256 positions 257..512 for the C5 counterexample. -/
def c5posB : List tsPosition := (List.range 256).map (fun i => ⟨i + 257, 0⟩)

/-- A well-formed two-term vector with 256 positions per term. -/
def c5vec : TSVector := [⟨"a", c5posA⟩, ⟨"b", c5posB⟩]

/-- The 512-entry union the merge returns for `a | b` on `c5vec`. -/
def c5out : List tsPosition :=
  c5posA.map (fun p => ⟨(p.position + 0) % 65536, 0⟩) ++
    c5posB.map (fun q => ⟨(q.position + 0) % 65536, 0⟩)

set_option maxRecDepth 8192 in
/-- C5 counterexample: on a well-formed vector (sorted lexemes, sorted
deduplicated per-term lists of at most 256 entries), the union-mode merge
for `a | b` returns 512 positions — the merge result is not truncated to
`maxTSVectorPositions`. -/
theorem claim_c5_counterexample :
    vecLexSorted c5vec ∧ vecPosSorted c5vec ∧
    (∀ e ∈ c5vec, e.positions.length ≤ maxTSVectorPositions) ∧
    evalWithinFollowedBy c5vec (.or (.term ⟨"a", []⟩) (.term ⟨"b", []⟩)) =
      .ok ⟨c5out, 0, false⟩ ∧
    maxTSVectorPositions < c5out.length := by
  refine ⟨by decide, by decide, by decide, ?_, by decide⟩
  have h1 : evalWithinFollowedBy c5vec (.term ⟨"a", []⟩) = .ok ⟨c5posA, 0, false⟩ := rfl
  have h2 : evalWithinFollowedBy c5vec (.term ⟨"b", []⟩) = .ok ⟨c5posB, 0, false⟩ := rfl
  have h3 : evalWithinFollowedBy c5vec (.or (.term ⟨"a", []⟩) (.term ⟨"b", []⟩)) =
      .ok ⟨evalFollowedByLoop (emitMatches ||| emitLeftUnmatched ||| emitRightUnmatched)
            0 0 c5posA c5posB, 0, false⟩ :=
    evalW_or_ok c5vec (.term ⟨"a", []⟩) (.term ⟨"b", []⟩)
      ⟨c5posA, 0, false⟩ ⟨c5posB, 0, false⟩ h1 h2
  have hd : ∀ p ∈ c5posA, ∀ q ∈ c5posB, p.position + 0 < q.position + 0 := by
    intro p hp q hq
    simp only [c5posA, c5posB, List.mem_map, List.mem_range] at hp hq
    obtain ⟨i, hi, rfl⟩ := hp
    obtain ⟨j, hj, rfl⟩ := hq
    simp only []
    omega
  have h4 := fbLoop_union_disjoint 0 0 c5posA c5posB hd
  rw [h3, h4]
  rfl

/-- C5 amended: only the normalizer's outputs are capped: every list
returned by `sortAndUniqTSPositions` has at most `maxTSVectorPositions`
entries, an over-long sorted deduplicated list being truncated to exactly
its first `maxTSVectorPositions` entries; merge outputs are not
re-normalized and are bounded only by the sum of the input lengths. -/
theorem claim_c5_amended_truncation :
    (∀ l : List tsPosition,
      (sortAndUniqTSPositions l).length ≤ maxTSVectorPositions) ∧
    (∀ l : List tsPosition, List.Pairwise posLt l →
      maxTSVectorPositions < l.length →
      sortAndUniqTSPositions l = l.take maxTSVectorPositions) ∧
    (∀ (mode lo ro : Nat) (ls rs : List tsPosition),
      (evalFollowedByLoop mode lo ro ls rs).length ≤ ls.length + rs.length) := by
  refine ⟨sortAndUniq_length_le, ?_, fbLoop_length_le⟩
  intro l hs hlen
  have h1 : ¬ l.length ≤ 1 := by
    simp only [maxTSVectorPositions] at hlen
    omega
  rw [sortAndUniqTSPositions, if_neg h1]
  simp only [sortByPos_eq_self l hs, uniqByPos_eq_self l hs]
  rw [if_pos hlen]

/-- 257 sorted positions used to witness the truncation branch. -/
def c5wlist : List tsPosition := (List.range 257).map (fun i => ⟨i, 0⟩)

set_option maxRecDepth 8192 in
theorem claim_c5_amended_witness :
    ((sortAndUniqTSPositions c5wlist).length ≤ maxTSVectorPositions) ∧
    (sortAndUniqTSPositions c5wlist = c5wlist.take maxTSVectorPositions) ∧
    ((evalFollowedByLoop
        (emitMatches ||| emitLeftUnmatched ||| emitRightUnmatched) 0 0 [] []).length ≤
      0 + 0) :=
  ⟨claim_c5_amended_truncation.1 c5wlist,
   claim_c5_amended_truncation.2.1 c5wlist (by decide) (by decide),
   claim_c5_amended_truncation.2.2
     (emitMatches ||| emitLeftUnmatched ||| emitRightUnmatched) 0 0 [] []⟩

/-! ## C4: sortedness of evaluator outputs -/

/-- C4 counterexample: on a well-formed vector (`b` at sorted positions
1, 2), the query `b <65534> !c` makes the evaluator emit the adjusted
positions 65535 and 65536; the second wraps to 0 in the `uint16`
conversion, so the returned list `[65535, 0]` is not sorted. -/
theorem claim_c4_counterexample :
    vecLexSorted [⟨"b", [⟨1, 0⟩, ⟨2, 0⟩]⟩] ∧
    vecPosSorted [⟨"b", [⟨1, 0⟩, ⟨2, 0⟩]⟩] ∧
    evalWithinFollowedBy [⟨"b", [⟨1, 0⟩, ⟨2, 0⟩]⟩]
        (.followedby 65534 (.term ⟨"b", []⟩) (.not (.term ⟨"c", []⟩))) =
      .ok ⟨[⟨65535, 0⟩, ⟨0, 0⟩], 65534, false⟩ ∧
    ¬ List.Pairwise posLt [⟨65535, 0⟩, ⟨0, 0⟩] := by
  refine ⟨by decide, by decide, ?_, by decide⟩
  have h1 : evalWithinFollowedBy [⟨"b", [⟨1, 0⟩, ⟨2, 0⟩]⟩] (.term ⟨"b", []⟩) =
      .ok ⟨[⟨1, 0⟩, ⟨2, 0⟩], 0, false⟩ := rfl
  have h2 : evalWithinFollowedBy [⟨"b", [⟨1, 0⟩, ⟨2, 0⟩]⟩] (.not (.term ⟨"c", []⟩)) =
      .ok ⟨[], 0, true⟩ := rfl
  rw [evalW_fb_ok _ 65534 _ _ _ _ h1 h2]
  show (Except.ok ⟨evalFollowedByLoop emitLeftUnmatched 65534 0 [⟨1, 0⟩, ⟨2, 0⟩] [],
      65534, false⟩ : Except tsError tsPositionSet) =
    .ok ⟨[⟨65535, 0⟩, ⟨0, 0⟩], 65534, false⟩
  rw [fbLoop_cons_nil, if_neg (by decide), fbLoop_cons_nil, if_neg (by decide),
    fbLoop_nil_nil]
  norm_num

/-- C4 amended: provided additionally that no offset-adjusted position
can reach 2^16 — every vector position is at most `M` with
`M + qWidth q < 2^16` — every position list returned by the position-set
evaluator is strictly ascending (sorted with no duplicates), and bounded
by `M + qWidth q`. -/
theorem claim_c4_amended_sorted (v : TSVector) (M : Nat) (q : tsNode)
    (hpos : vecPosSorted v)
    (hM : ∀ e ∈ v, ∀ p ∈ e.positions, p.position ≤ M)
    (hw : M + qWidth q < 65536) :
    ∀ res, evalWithinFollowedBy v q = .ok res →
      List.Pairwise posLt res.positions ∧
        ∀ p ∈ res.positions, p.position ≤ M + qWidth q :=
  evalW_sorted_bounded v M hpos hM q hw

theorem claim_c4_amended_witness :
    List.Pairwise posLt [⟨2, 0⟩, ⟨3, 0⟩] ∧
      ∀ p ∈ ([⟨2, 0⟩, ⟨3, 0⟩] : List tsPosition), p.position ≤ 2 +
        qWidth (.followedby 1 (.term ⟨"b", []⟩) (.not (.term ⟨"zz", []⟩))) := by
  have h1 : evalWithinFollowedBy [⟨"b", [⟨1, 0⟩, ⟨2, 0⟩]⟩] (.term ⟨"b", []⟩) =
      .ok ⟨[⟨1, 0⟩, ⟨2, 0⟩], 0, false⟩ := rfl
  have h2 : evalWithinFollowedBy [⟨"b", [⟨1, 0⟩, ⟨2, 0⟩]⟩] (.not (.term ⟨"zz", []⟩)) =
      .ok ⟨[], 0, true⟩ := rfl
  have hres : evalWithinFollowedBy [⟨"b", [⟨1, 0⟩, ⟨2, 0⟩]⟩]
      (.followedby 1 (.term ⟨"b", []⟩) (.not (.term ⟨"zz", []⟩))) =
      .ok ⟨[⟨2, 0⟩, ⟨3, 0⟩], 1, false⟩ := by
    rw [evalW_fb_ok _ 1 _ _ _ _ h1 h2]
    show (Except.ok ⟨evalFollowedByLoop emitLeftUnmatched 1 0 [⟨1, 0⟩, ⟨2, 0⟩] [],
        1, false⟩ : Except tsError tsPositionSet) = .ok ⟨[⟨2, 0⟩, ⟨3, 0⟩], 1, false⟩
    rw [fbLoop_cons_nil, if_neg (by decide), fbLoop_cons_nil, if_neg (by decide),
      fbLoop_nil_nil]
    norm_num
  exact claim_c4_amended_sorted [⟨"b", [⟨1, 0⟩, ⟨2, 0⟩]⟩] 2
    (.followedby 1 (.term ⟨"b", []⟩) (.not (.term ⟨"zz", []⟩)))
    (by decide) (by decide) (by decide) ⟨[⟨2, 0⟩, ⟨3, 0⟩], 1, false⟩ hres
